import Mathlib

/-!
# A shallow embedding of the cheeky-jit code generator

This file embeds the parts of the `cheeky-jit` repository that the
verified claims are about:

* `src/jit/assembler.rs` — the bit-field packer (`BitwiseWriter::write`),
  the AArch64 instruction encoder (`Arm64Writer`), and the assembler
  façade (`Assembler`);
* `src/jit/mod.rs` — the lowering pass (`Jit::compile`) and the branch
  linker (`Jit::link_and_rewrite`, `sign_extend`,
  `sign_extend_upper_bits`);
* `src/vm.rs` — the VM state (`VM::new`) and the instruction set;
* `src/main.rs` — the CLI dispatch and the reference interpreter
  (`run_interpreted`).

Machine integers are embedded as `Nat` with explicit reductions modulo
`2 ^ w` at the points where the Rust code relies on fixed-width
arithmetic.  Rust arithmetic that overflows is modelled with the
release-profile (wrapping) semantics; the spots where this matters are
noted at the definitions.  Fallible Rust paths (`Result`, `panic!`,
`todo!`, out-of-bounds indexing) are modelled with `Except`/`Option`.

Running the generated AArch64 code is not part of the repository's
sources (it happens on hardware), so the needed fragment of the AArch64
semantics is modelled separately (`Arm64` namespace) from the
instruction forms the spec lists in §4.2.
-/

namespace CheekyJit

/-- Extract `width` bits of `w` starting at bit `lo` (little-endian bit
numbering), i.e. the field `w[lo + width - 1 : lo]`. -/
def bitfield (w lo width : Nat) : Nat :=
  w / 2 ^ lo % 2 ^ width

/-- Reinterpret a 64-bit unsigned value as a two's-complement signed
integer. -/
def toI64 (x : Nat) : Int :=
  if x % 2 ^ 64 < 2 ^ 63 then (x % 2 ^ 64 : Int) else (x % 2 ^ 64 : Int) - 2 ^ 64

/-- Reinterpret a 16-bit unsigned value as a two's-complement signed
integer (the Rust `as i16` cast applied to a `usize`). -/
def toI16 (x : Nat) : Int :=
  if x % 2 ^ 16 < 2 ^ 15 then (x % 2 ^ 16 : Int) else (x % 2 ^ 16 : Int) - 2 ^ 16

/-- Wrap an integer into the two's-complement `i16` range (release-mode
Rust wrapping subtraction). -/
def wrapI16 (x : Int) : Int :=
  (x + 2 ^ 15) % 2 ^ 16 - 2 ^ 15

/-- Rust's integer division truncates toward zero; for the divisors
used here (positive powers of two) this is the explicit sign split
below. -/
def rustDiv (a b : Int) : Int :=
  if 0 ≤ a then a / b else -(-a / b)

/-- One `(value, bits)` field handed to the bit-field packer
(`BitIndex` in `src/jit/assembler.rs`). -/
structure BitIndex where
  bits : Nat
  value : Nat
deriving Repr, DecidableEq

/-- The failure kinds of the packer, following the spec's error
taxonomy: `overflow` models the `panic!("overflow bit length: ...")`
in `BitwiseWriter::write` (a field value that does not fit its width)
and `short` models the `Err(())` returns (field widths that do not sum
to exactly 32). -/
inductive EncErr where
  | overflow
  | short
deriving Repr, DecidableEq

/-- Decidable equality for `Except`, so that concrete runs of the
embedded fallible functions can be settled by `decide`. -/
def exceptDecEq {e a : Type} [DecidableEq e] [DecidableEq a] : DecidableEq (Except e a) :=
  fun x y =>
    match x, y with
    | .ok u, .ok v => if h : u = v then isTrue (by rw [h]) else isFalse (by simp [h])
    | .error u, .error v => if h : u = v then isTrue (by rw [h]) else isFalse (by simp [h])
    | .ok _, .error _ => isFalse (by simp)
    | .error _, .ok _ => isFalse (by simp)

instance {e a : Type} [DecidableEq e] [DecidableEq a] : DecidableEq (Except e a) :=
  exceptDecEq

namespace BitwiseWriter

/-- The loop of `BitwiseWriter::write` (src/jit/assembler.rs:589-614).
The state is the remaining fields, `bit_position`, the accumulated
`value` (a `u32`), and the `more_bits` flag.  Two details of the
source are kept exactly:

* `more_bits` is one iteration stale: it is recomputed at the top of
  the loop body from the `bit_position` *before* the current field is
  consumed, and the `while` condition reads the previous iteration's
  value;
* the shifts follow Rust's release-profile shift semantics (the shift
  amount is masked by the operand width): `shift` is
  `bits.bits as u32` (`% 2 ^ 32`), the overflow test
  `bits.value >> shift` shifts a `usize` (stored value `% 2 ^ 64`,
  shift amount `% 64`), and `value << shift` together with the mask
  `(1u32 << shift) - 1` use the shift amount `% 32` — so a field of
  width exactly 32 contributes *nothing* to the word (`mask = 0`,
  `value << 0`).

Returns the final `(bit_position, value)` of the loop, or the error
the loop produced (`overflow` for the panic, `short` for `Err(())`). -/
def writeGo : List BitIndex → Nat → Nat → Bool → Except EncErr (Nat × Nat)
  | _, bp, v, false => .ok (bp, v)
  | [], bp, v, true => if bp < 32 then .error .short else .ok (bp, v)
  | f :: rest, bp, v, true =>
      let shift := f.bits % 2 ^ 32
      if f.value % 2 ^ 64 / 2 ^ (shift % 64) ≠ 0 then .error .overflow
      else writeGo rest ((bp + shift) % 2 ^ 32)
        (v * 2 ^ (shift % 32) % 2 ^ 32 + f.value % 2 ^ 32 % 2 ^ (shift % 32))
        (decide (bp < 32))

/-- `BitwiseWriter::write` (src/jit/assembler.rs:586-621), restricted to
the list-shaped generators every caller passes (`Some` for the first
`k` indices, `None` afterwards).  After the loop, `Ok` is returned only
when `bit_position` landed exactly on 32. -/
def write (fields : List BitIndex) : Except EncErr Nat :=
  match writeGo fields 0 0 true with
  | .ok (bp, v) => if bp = 32 then .ok v else .error .short
  | .error e => .error e

end BitwiseWriter

/-- Total width of an ordered field list. -/
def sumBits (l : List BitIndex) : Nat := (l.map (·.bits)).sum

/-- The architectural registers the code generator uses (`Reg` in
src/jit/assembler.rs:3-15, with the same discriminants). -/
inductive Reg where
  | GPR0
  | GPR1
  | VmStructBase
  | RegisterArrayBase
  | LocalsArrayBase
  | RET
  | SP
deriving Repr, DecidableEq

/-- The `#[repr(u8)]` discriminant of each register. -/
def Reg.toNat : Reg → Nat
  | .GPR0 => 4
  | .GPR1 => 5
  | .VmStructBase => 0
  | .RegisterArrayBase => 1
  | .LocalsArrayBase => 2
  | .RET => 30
  | .SP => 31

/-- The source unwraps every packer result (`.unwrap()`), panicking on
`Err`.  On the encoder paths below every field fits and the widths sum
to 32, so the error branch is never taken; 0 stands for the
unreachable panic. -/
def unwrap32 (x : Except EncErr Nat) : Nat :=
  match x with
  | .ok v => v
  | .error _ => 0

/-- `Arm64Writer::emit32`: append one 32-bit word to the byte buffer in
little-endian order. -/
def bytesOfWord (w : Nat) : List Nat :=
  [w % 2 ^ 8, w / 2 ^ 8 % 2 ^ 8, w / 2 ^ 16 % 2 ^ 8, w / 2 ^ 24 % 2 ^ 8]

/-- Read back the little-endian 32-bit word at byte offset `i`.  (The
source reads `&buf[i..i + 4]`; bounds are checked at the call sites
that can fail.) -/
def word32At (buf : List Nat) (i : Nat) : Nat :=
  buf.getD i 0 + 2 ^ 8 * buf.getD (i + 1) 0 + 2 ^ 16 * buf.getD (i + 2) 0 +
    2 ^ 24 * buf.getD (i + 3) 0

namespace Arm64Writer

/-- `emit_mov_reg` (MOV register, alias of ORR with Rn = XZR):
src/jit/assembler.rs:201-224. -/
def mov_reg_word (dst src : Reg) : Nat :=
  unwrap32 (BitwiseWriter.write
    [⟨11, 0b10101010000⟩, ⟨5, src.toNat⟩, ⟨11, 0b00000011111⟩, ⟨5, dst.toNat⟩])

/-- The MOVZ word of `emit_mov_imm` (src/jit/assembler.rs:230-245):
the low halfword of `imm`. -/
def movz_word (dst : Reg) (imm : Nat) : Nat :=
  unwrap32 (BitwiseWriter.write
    [⟨11, 0b11010010100⟩, ⟨16, imm % 2 ^ 16⟩, ⟨5, dst.toNat⟩])

/-- A MOVK word of `emit_mov_imm` (src/jit/assembler.rs:250-266) for
halfword slot `hw`. -/
def movk_word (dst : Reg) (hw imm16 : Nat) : Nat :=
  unwrap32 (BitwiseWriter.write
    [⟨9, 0b111100101⟩, ⟨2, hw⟩, ⟨16, imm16⟩, ⟨5, dst.toNat⟩])

/-- The MOVK loop of `emit_mov_imm`: `while imm != 0 && hw < 4`.  The
first argument counts the iterations the `hw < 4` bound still allows
(`4 - hw`), so the recursion is structural. -/
def movkGo (dst : Reg) : Nat → Nat → Nat → List Nat
  | 0, _, _ => []
  | left + 1, imm, hw =>
    if imm = 0 then []
    else bytesOfWord (movk_word dst hw (imm % 2 ^ 16)) ++ movkGo dst left (imm / 2 ^ 16) (hw + 1)

/-- `emit_mov_imm` (src/jit/assembler.rs:226-271): MOVZ for the low
halfword followed by MOVK (hw = 1..3) for each remaining non-zero
upper halfword. -/
def emit_mov_imm (dst : Reg) (imm : Nat) : List Nat :=
  let imm := imm % 2 ^ 64
  bytesOfWord (movz_word dst imm) ++ movkGo dst 3 (imm / 2 ^ 16) 1

/-- `emit_str` (STR immediate, unsigned offset, 64-bit):
src/jit/assembler.rs:273-295. -/
def str_word (dst : Reg) (dst_offset : Nat) (src : Reg) : Nat :=
  unwrap32 (BitwiseWriter.write
    [⟨10, 0b1111100100⟩, ⟨12, dst_offset⟩, ⟨5, dst.toNat⟩, ⟨5, src.toNat⟩])

/-- `emit_ldr` (LDR immediate, unsigned offset, 64-bit):
src/jit/assembler.rs:297-319. -/
def ldr_word (dst src : Reg) (src_offset : Nat) : Nat :=
  unwrap32 (BitwiseWriter.write
    [⟨10, 0b1111100101⟩, ⟨12, src_offset⟩, ⟨5, src.toNat⟩, ⟨5, dst.toNat⟩])

/-- `emit_cset` (src/jit/assembler.rs:321-343).  The condition field is
the literal `0b1101` from the source. -/
def cset_word (dst : Reg) : Nat :=
  unwrap32 (BitwiseWriter.write
    [⟨16, 0b1001101010011111⟩, ⟨4, 0b1101⟩, ⟨7, 0b0111111⟩, ⟨5, dst.toNat⟩])

/-- `emit_add` (ADD immediate, 64-bit): src/jit/assembler.rs:345-367. -/
def add_word (dst src : Reg) (value : Nat) : Nat :=
  unwrap32 (BitwiseWriter.write
    [⟨10, 0b1001000100⟩, ⟨12, value⟩, ⟨5, src.toNat⟩, ⟨5, dst.toNat⟩])

/-- `emit_sub` (SUB immediate, 64-bit): src/jit/assembler.rs:369-391. -/
def sub_word (dst src : Reg) (value : Nat) : Nat :=
  unwrap32 (BitwiseWriter.write
    [⟨10, 0b1101000100⟩, ⟨12, value⟩, ⟨5, src.toNat⟩, ⟨5, dst.toNat⟩])

/-- `emit_push` (src/jit/assembler.rs:393-396): `SUB SP, SP, #64` then
`STR src, [SP, imm12 = 1]`. -/
def emit_push (src : Reg) : List Nat :=
  bytesOfWord (sub_word .SP .SP 64) ++ bytesOfWord (str_word .SP 1 src)

/-- `emit_pop` (src/jit/assembler.rs:398-403): optional
`LDR dst, [SP, imm12 = 1]` then `ADD SP, SP, #64`. -/
def emit_pop (dst : Option Reg) : List Nat :=
  (match dst with
   | some dst => bytesOfWord (ldr_word dst .SP 1)
   | none => []) ++ bytesOfWord (add_word .SP .SP 64)

/-- `emit_branch` (unconditional B): src/jit/assembler.rs:405-420. -/
def branch_word (addr_offset : Nat) : Nat :=
  unwrap32 (BitwiseWriter.write [⟨6, 0b000101⟩, ⟨26, addr_offset⟩])

/-- `emit_branch_with_link` (BLR): src/jit/assembler.rs:422-437. -/
def blr_word (target : Reg) : Nat :=
  unwrap32 (BitwiseWriter.write
    [⟨22, 0b1101011000111111000000⟩, ⟨5, target.toNat⟩, ⟨5, 0⟩])

/-- `emit_branch_eq` (B.cond with cond = EQ): src/jit/assembler.rs:439-454. -/
def branch_eq_word (imm19 : Nat) : Nat :=
  unwrap32 (BitwiseWriter.write [⟨8, 0b01010100⟩, ⟨19, imm19⟩, ⟨5, 0⟩])

/-- `emit_cmp` on a register operand (CMP shifted register, an alias of
SUBS with Rd = XZR): src/jit/assembler.rs:459-483.  `lhs` is Rn, `rhs`
is Rm. -/
def cmp_reg_word (lhs rhs : Reg) : Nat :=
  unwrap32 (BitwiseWriter.write
    [⟨11, 0b11101011000⟩, ⟨5, rhs.toNat⟩, ⟨6, 0⟩, ⟨5, lhs.toNat⟩, ⟨5, 0b11111⟩])

/-- `emit_cmp` on an immediate operand (CMP immediate, alias of SUBS
with Rd = XZR): src/jit/assembler.rs:484-507. -/
def cmp_imm_word (lhs : Reg) (imm12 : Nat) : Nat :=
  unwrap32 (BitwiseWriter.write
    [⟨10, 0b1111000100⟩, ⟨12, imm12⟩, ⟨5, lhs.toNat⟩, ⟨5, 0b11111⟩])

/-- `emit_incr` (`ADD dst, dst, #1`): src/jit/assembler.rs:512-534. -/
def incr_word (dst : Reg) : Nat :=
  unwrap32 (BitwiseWriter.write
    [⟨10, 0b1001000100⟩, ⟨12, 1⟩, ⟨5, dst.toNat⟩, ⟨5, dst.toNat⟩])

/-- `emit_ret` (RET to X30): src/jit/assembler.rs:536-550. -/
def ret_word : Nat :=
  unwrap32 (BitwiseWriter.write
    [⟨22, 0b1101011001011111000000⟩, ⟨5, 0b11110⟩, ⟨5, 0⟩])

/-- `emit_brk`: src/jit/assembler.rs:552-567. -/
def brk_word (imm16 : Nat) : Nat :=
  unwrap32 (BitwiseWriter.write [⟨11, 0b11010100001⟩, ⟨16, imm16⟩, ⟨5, 0⟩])

/-- `emit_nop`: src/jit/assembler.rs:569-572. -/
def nop_word : Nat := 0b11010101000000110010000000011111

end Arm64Writer

/-- The assembler's mutable state: the output byte buffer, plus the
jump markers (`jumps_to_here`) recorded by `BlockTarget::insert_jump_marker`
as pairs of (target block index, byte offset of the branch site), kept
in emission order.  In the source the markers live inside the shared
`BasicBlock` objects; block identity is by position in
`Program.blocks` (spec §3), so an index faithfully stands for the
`Rc` handle. -/
structure AsmSt where
  out : List Nat
  sites : List (Nat × Nat)
deriving Repr, DecidableEq

/-- Append raw bytes to the output buffer. -/
def AsmSt.emit (st : AsmSt) (bs : List Nat) : AsmSt :=
  { st with out := st.out ++ bs }

namespace Assembler

open Arm64Writer

/-- `Assembler::load_immediate64` → `mov(Reg dst, Imm64 imm)` →
`emit_mov_imm`. -/
def load_immediate64 (st : AsmSt) (dst : Reg) (imm : Nat) : AsmSt :=
  st.emit (emit_mov_imm dst imm)

/-- `Assembler::store_vm_register` → `mov(Mem64(RegisterArrayBase, dst), Reg src)`
→ `emit_str`. -/
def store_vm_register (st : AsmSt) (dst : Nat) (src : Reg) : AsmSt :=
  st.emit (bytesOfWord (str_word .RegisterArrayBase dst src))

/-- `Assembler::load_vm_register` → `mov(Reg dst, Mem64(RegisterArrayBase, src))`
→ `emit_ldr` (after `assert_eq!(src_offset >> 12, 0)`, which holds for
every register index a compiled program can mention, since larger
offsets would already make the packer panic). -/
def load_vm_register (st : AsmSt) (dst : Reg) (src : Nat) : AsmSt :=
  st.emit (bytesOfWord (ldr_word dst .RegisterArrayBase src))

/-- `Assembler::store_vm_local` → `emit_str` with base `LocalsArrayBase`. -/
def store_vm_local (st : AsmSt) (dst : Nat) (src : Reg) : AsmSt :=
  st.emit (bytesOfWord (str_word .LocalsArrayBase dst src))

/-- `Assembler::load_vm_local` → `emit_ldr` with base `LocalsArrayBase`. -/
def load_vm_local (st : AsmSt) (dst : Reg) (src : Nat) : AsmSt :=
  st.emit (bytesOfWord (ldr_word dst .LocalsArrayBase src))

/-- `Assembler::increment` → `emit_incr`. -/
def increment (st : AsmSt) (dst : Reg) : AsmSt :=
  st.emit (bytesOfWord (incr_word dst))

/-- `Assembler::less_than` (src/jit/assembler.rs:71-77):
`emit_cmp(src, Reg(dst))` then `emit_cset(dst)`. -/
def less_than (st : AsmSt) (dst src : Reg) : AsmSt :=
  (st.emit (bytesOfWord (cmp_reg_word src dst))).emit (bytesOfWord (cset_word dst))

/-- `Assembler::jump` (src/jit/assembler.rs:79-83): emit a `B`
placeholder with immediate `0xdeadaf`, then record the site
(`insert_jump_marker(len) ` stores `len - 4`) against the target
block. -/
def jump (st : AsmSt) (target : Nat) : AsmSt :=
  let st := st.emit (bytesOfWord (branch_word 0xdeadaf))
  { st with sites := st.sites ++ [(target, st.out.length - 4)] }

/-- `Assembler::jump_conditional` (src/jit/assembler.rs:85-100):
`CMP reg, #0`; `B.EQ` placeholder recorded against the false target;
unconditional `B` placeholder recorded against the true target. -/
def jump_conditional (st : AsmSt) (reg : Reg) (true_target false_target : Nat) : AsmSt :=
  let st := st.emit (bytesOfWord (cmp_imm_word reg 0))
  let st := st.emit (bytesOfWord (branch_eq_word 0xdead))
  let st := { st with sites := st.sites ++ [(false_target, st.out.length - 4)] }
  jump st true_target

/-- `Assembler::call_into_rust` (src/jit/assembler.rs:102-131) for
`Func::FnSingleInt64WithReturnInt64`.  The host function's machine
address is a runtime value outside the embedding; it is a parameter
here. -/
def call_into_rust (st : AsmSt) (dst : Reg) (addr arg0 : Nat) : AsmSt :=
  let st := st.emit (emit_push .VmStructBase)
  let st := st.emit (emit_push .RegisterArrayBase)
  let st := st.emit (emit_push .LocalsArrayBase)
  let st := st.emit (emit_push .GPR0)
  let st := st.emit (emit_push .GPR1)
  let st := st.emit (emit_push .RET)
  let st := st.emit (emit_mov_imm .VmStructBase arg0)
  let st := st.emit (emit_mov_imm .GPR1 addr)
  let st := st.emit (bytesOfWord (blr_word .GPR1))
  let st := st.emit (bytesOfWord (mov_reg_word .GPR0 .VmStructBase))
  let st := st.emit (emit_pop (some .RET))
  let st := st.emit (emit_pop (some .GPR1))
  let st :=
    if dst ≠ .GPR0 then
      (st.emit (bytesOfWord (mov_reg_word dst .GPR0))).emit (emit_pop (some .GPR0))
    else st.emit (emit_pop none)
  let st := st.emit (emit_pop (some .LocalsArrayBase))
  let st := st.emit (emit_pop (some .RegisterArrayBase))
  st.emit (emit_pop (some .VmStructBase))

/-- `Assembler::brk`. -/
def brk (st : AsmSt) : AsmSt := st.emit (bytesOfWord (brk_word 0))

/-- `Assembler::ret`. -/
def ret (st : AsmSt) : AsmSt := st.emit (bytesOfWord ret_word)

/-- `Assembler::no_op`. -/
def no_op (st : AsmSt) : AsmSt := st.emit (bytesOfWord nop_word)

end Assembler

/-- The VM instruction set (`Instruction` in src/vm.rs:120-153).
Block targets are indices into `Program.blocks` (block identity is by
position, spec §3). -/
inductive Instr where
  | loadImmediate (value : Nat)
  | load (reg : Nat)
  | store (reg : Nat)
  | setLocal (lcl : Nat)
  | getLocal (lcl : Nat)
  | increment
  | lessThan (lhs : Nat)
  | breakpoint
  | exit
  | jump (target : Nat)
  | jumpConditional (true_target false_target : Nat)
  | loadRandom (max : Nat)
deriving Repr, DecidableEq

/-- `Program` (src/vm.rs:40-43): an ordered list of basic blocks, each
a list of instructions. -/
structure Program where
  blocks : List (List Instr)
deriving Repr, DecidableEq

/-- `VM` (src/vm.rs:4-8): the register and local arrays, each entry a
64-bit `Value`. -/
structure VMState where
  registers : List Nat
  locals : List Nat
deriving Repr, DecidableEq

/-- `VM::new` (src/vm.rs:11-17): `assert!(register_count > 0)` (the
panic is modelled as `none`), then both arrays are filled with
`Value(0)`. -/
def VM.new (register_count local_count : Nat) : Option VMState :=
  if 0 < register_count then
    some ⟨List.replicate register_count 0, List.replicate local_count 0⟩
  else none

/-- `VM::accum_reg` — register 0.  The source indexes `registers[0]`,
which cannot panic for a VM built by `VM::new`. -/
def VMState.accum (vm : VMState) : Nat := vm.registers.getD 0 0

/-- The loop of `run_interpreted` (src/main.rs:43-99), with explicit
fuel (`none` = fuel ran out), `some (.error ())` for the `Err(())`
returns, and `some (.ok vm)` for normal termination.  Notable details
kept from the source: the `Increment` arm is `.0 += 1`, which wraps
modulo `2 ^ 64` (release-profile overflow semantics); and the `Jump` /
`JumpConditional` helper sets `instruction_index = 0` after which the
loop footer executes `instruction_index += 1`, so execution resumes at
index 1 of the target block.  The source's `match` has no arm for
`Breakpoint` or `LoadRandom`; those are modelled as undefined
(`none`). -/
def interpGo (blocks : List (List Instr)) :
    Nat → VMState → List Instr → Nat → Option (Except Unit VMState)
  | 0, _, _, _ => none
  | fuel + 1, vm, cur, idx =>
    match cur.get? idx with
    | none => some (.ok vm)
    | some i =>
      match i with
      | .loadImmediate v =>
          interpGo blocks fuel { vm with registers := vm.registers.set 0 (v % 2 ^ 64) }
            cur (idx + 1)
      | .load r =>
          match vm.registers.get? r with
          | none => some (.error ())
          | some x =>
              interpGo blocks fuel { vm with registers := vm.registers.set 0 x } cur (idx + 1)
      | .store r =>
          if r < vm.registers.length then
            interpGo blocks fuel { vm with registers := vm.registers.set r vm.accum }
              cur (idx + 1)
          else some (.error ())
      | .setLocal l =>
          if l < vm.locals.length then
            interpGo blocks fuel { vm with locals := vm.locals.set l vm.accum } cur (idx + 1)
          else some (.error ())
      | .getLocal l =>
          match vm.locals.get? l with
          | none => some (.error ())
          | some x =>
              interpGo blocks fuel { vm with registers := vm.registers.set 0 x } cur (idx + 1)
      | .increment =>
          interpGo blocks fuel
            { vm with registers := vm.registers.set 0 ((vm.accum + 1) % 2 ^ 64) } cur (idx + 1)
      | .lessThan lhs =>
          match vm.registers.get? lhs with
          | none => some (.error ())
          | some x =>
              interpGo blocks fuel
                { vm with registers := vm.registers.set 0 (if x < vm.accum then 1 else 0) }
                cur (idx + 1)
      | .exit => some (.ok vm)
      | .jump t => interpGo blocks fuel vm (blocks.getD t []) (0 + 1)
      | .jumpConditional t f =>
          let tgt := if vm.accum ≠ 0 then t else f
          interpGo blocks fuel vm (blocks.getD tgt []) (0 + 1)
      | .breakpoint => none
      | .loadRandom _ => none

/-- `run_interpreted` (src/main.rs:43-100): start at block 0
(`blocks.first().ok_or(())?`), instruction 0. -/
def run_interpreted (P : Program) (vm : VMState) (fuel : Nat) : Option (Except Unit VMState) :=
  match P.blocks.get? 0 with
  | none => some (.error ())
  | some b0 => interpGo P.blocks fuel vm b0 0

/-- The per-instruction lowering of `Jit::compile`
(src/jit/mod.rs:26-85). -/
def lowerInstr (a : AsmSt) (i : Instr) : AsmSt :=
  match i with
  | .loadImmediate v =>
      Assembler.store_vm_register (Assembler.load_immediate64 a .GPR0 v) 0 .GPR0
  | .load r =>
      Assembler.store_vm_register (Assembler.load_vm_register a .GPR0 r) 0 .GPR0
  | .store r =>
      Assembler.store_vm_register (Assembler.load_vm_register a .GPR0 0) r .GPR0
  | .setLocal l =>
      Assembler.store_vm_local (Assembler.load_vm_register a .GPR0 0) l .GPR0
  | .getLocal l =>
      Assembler.store_vm_register (Assembler.load_vm_local a .GPR0 l) 0 .GPR0
  | .increment =>
      Assembler.store_vm_register
        (Assembler.increment (Assembler.load_vm_register a .GPR0 0) .GPR0) 0 .GPR0
  | .lessThan lhs =>
      Assembler.store_vm_register
        (Assembler.less_than
          (Assembler.load_vm_register (Assembler.load_vm_register a .GPR0 lhs) .GPR1 0)
          .GPR0 .GPR1) 0 .GPR0
  | .loadRandom mx =>
      Assembler.store_vm_register (Assembler.call_into_rust a .GPR0 0 mx) 0 .GPR0
  | .breakpoint => Assembler.brk a
  | .exit => Assembler.ret a
  | .jump t => Assembler.jump a t
  | .jumpConditional t f =>
      Assembler.jump_conditional (Assembler.load_vm_register a .GPR0 0) .GPR0 t f

/-- The lowering state: the assembler plus the per-block byte offsets
recorded at the start of each block (`block.offset` and
`jit.block_offsets`, src/jit/mod.rs:19-21). -/
structure LowerSt where
  asm : AsmSt
  block_offsets : List Nat
deriving Repr, DecidableEq

/-- Lower one block: record its offset, then lower each instruction. -/
def lowerBlock (L : LowerSt) (blk : List Instr) : LowerSt :=
  { asm := blk.foldl lowerInstr L.asm,
    block_offsets := L.block_offsets ++ [L.asm.out.length] }

namespace Jit

/-- The forward lowering traversal of `Jit::compile`
(src/jit/mod.rs:19-87). -/
def lower (P : Program) : LowerSt :=
  P.blocks.foldl lowerBlock ⟨⟨[], []⟩, []⟩

/-- The linker errors.  The source has none of these as values: the
unrecognized-opcode arm is a `todo!()` panic, a packer `Err` would
panic through `.unwrap()`, and an out-of-range site would panic on the
slice index; the constructors model those panics. -/
inductive LinkErr where
  | unknownOpcode
  | encoding
  | bounds
deriving Repr, DecidableEq

/-- `Assembler::rewrite_instr32` (src/jit/assembler.rs:146-150): store
`value` little-endian over bytes `offset..offset + 4`. -/
def rewrite_instr32 (out : List Nat) (offset value : Nat) : List Nat :=
  (((out.set offset (value % 2 ^ 8)).set (offset + 1) (value / 2 ^ 8 % 2 ^ 8)).set
      (offset + 2) (value / 2 ^ 16 % 2 ^ 8)).set (offset + 3) (value / 2 ^ 24 % 2 ^ 8)

/-- `sign_extend_upper_bits` (src/jit/mod.rs:220-226). -/
def sign_extend_upper_bits (value : Int) (bits : Nat) : Nat :=
  if value < 0 then 2 ^ bits - 1 else 0

/-- `sign_extend` (src/jit/mod.rs:228-235). -/
def sign_extend (value : Int) (bits : Nat) : Nat :=
  if value < 0 then ((2 ^ bits : Int) + value).toNat else value.toNat

/-- `Jit::link_and_rewrite` (src/jit/mod.rs:98-144).  The delta is the
source's 16-bit signed subtraction of the raw byte offsets (`as i16`
casts, wrapping in release mode) followed by truncating division by 4;
there is no range check of the delta against the immediate field
width. -/
def link_and_rewrite (out : List Nat) (target_offset instr_offset : Nat) :
    Except LinkErr (List Nat) :=
  if instr_offset + 4 ≤ out.length then
    let op_code := out.getD (instr_offset + 3) 0 / 4
    let byte_offset : Int := wrapI16 (toI16 target_offset - toI16 instr_offset)
    let offset : Int := rustDiv byte_offset 4
    if op_code = 0b000101 then
      match BitwiseWriter.write
          [⟨6, op_code⟩, ⟨10, sign_extend_upper_bits offset 10⟩,
            ⟨16, sign_extend offset 16⟩] with
      | .ok value => .ok (rewrite_instr32 out instr_offset value)
      | .error _ => .error .encoding
    else if op_code = 0b010101 then
      match BitwiseWriter.write
          [⟨8, 0b01010100⟩, ⟨3, sign_extend_upper_bits offset 3⟩,
            ⟨16, sign_extend offset 16⟩, ⟨5, 0⟩] with
      | .ok value => .ok (rewrite_instr32 out instr_offset value)
      | .error _ => .error .encoding
    else .error .unknownOpcode
  else .error .bounds

/-- The linking loop of `Jit::compile` (src/jit/mod.rs:89-94) walks the
blocks in order and, per block, its `jumps_to_here` markers in
insertion order; each yields `(block offset, site offset)`. -/
def orderedSitesGo (sites : List (Nat × Nat)) : List Nat → Nat → List (Nat × Nat)
  | [], _ => []
  | off :: rest, b =>
      ((sites.filter (fun s => s.1 = b)).map (fun s => (off, s.2))) ++
        orderedSitesGo sites rest (b + 1)

/-- All link work items of a lowered program, in the order the source
processes them. -/
def orderedSites (L : LowerSt) : List (Nat × Nat) :=
  orderedSitesGo L.asm.sites L.block_offsets 0

/-- Run the linker over a list of `(target offset, site offset)` work
items. -/
def linkSites : List Nat → List (Nat × Nat) → Except LinkErr (List Nat)
  | out, [] => .ok out
  | out, (t, i) :: rest =>
    match link_and_rewrite out t i with
    | .ok out' => linkSites out' rest
    | .error e => .error e

/-- The result of `Jit::compile`: the linked code buffer and the block
offsets. -/
structure CompiledJit where
  code : List Nat
  block_offsets : List Nat
deriving Repr, DecidableEq

/-- `Jit::compile` (src/jit/mod.rs:15-96): lower every block, then link
every recorded branch site. -/
def compile (P : Program) : Except LinkErr CompiledJit :=
  let L := lower P
  match linkSites L.asm.out (orderedSites L) with
  | .ok code => .ok ⟨code, L.block_offsets⟩
  | .error e => .error e

end Jit

namespace Arm64

/-!
Executing the generated machine code happens on AArch64 hardware, not
in this repository's sources.  The fragment of the AArch64 semantics
needed to run the generated code is modelled here from the instruction
forms the spec lists (§4.2): MOVZ/MOVK, LDR/STR (immediate unsigned
offset, 64-bit, offset scaled by 8), ADD/SUB (immediate), SUBS
(= CMP when Rd = XZR) in both register and immediate form, CSINC
(= CSET when Rn = Rm = XZR, with the encoded condition inverted), B,
B.cond, RET, NOP, plus BRK/BLR as undefined stops.  All data registers
are 64-bit; register 31 reads as the zero register in the forms
executed here (no SP-addressed instruction is ever run by the
theorems below).
-/

/-- The NZCV condition flags. -/
structure Flags where
  n : Bool
  z : Bool
  c : Bool
  v : Bool
deriving Repr, DecidableEq

/-- `ConditionHolds` from the ARM pseudocode: the top three condition
bits select a base predicate, and a set low bit inverts it (except for
`AL`/`NV`). -/
def condHolds (cond : Nat) (f : Flags) : Bool :=
  let base :=
    match cond / 2 % 8 with
    | 0 => f.z
    | 1 => f.c
    | 2 => f.n
    | 3 => f.v
    | 4 => f.c && !f.z
    | 5 => f.n == f.v
    | 6 => !f.z && (f.n == f.v)
    | _ => true
  if cond % 2 = 1 ∧ cond ≠ 15 then !base else base

/-- The NZCV flags of a 64-bit subtraction `a - b` (what SUBS/CMP
computes): N is bit 63 of the result, Z means the result is zero, C is
the no-borrow carry, V is signed overflow. -/
def subFlags (a b : Nat) : Flags :=
  let a := a % 2 ^ 64
  let b := b % 2 ^ 64
  let r := (a + (2 ^ 64 - b)) % 2 ^ 64
  { n := decide (2 ^ 63 ≤ r), z := decide (r = 0), c := decide (b ≤ a),
    v := decide (toI64 a - toI64 b < -(2 ^ 63) ∨ (2 ^ 63 : Int) ≤ toI64 a - toI64 b) }

/-- The 64-bit result of the subtraction `a - b`. -/
def subResult (a b : Nat) : Nat :=
  (a % 2 ^ 64 + (2 ^ 64 - b % 2 ^ 64)) % 2 ^ 64

/-- The addresses the generated code receives in X1/X2: the base
pointers of the VM's `registers` and `locals` arrays.  Concrete,
well-separated, 8-byte-aligned model addresses. -/
def regsBase : Nat := 2 ^ 20

/-- Base address of the `locals` array (see `regsBase`). -/
def localsBase : Nat := 2 ^ 21

/-- The machine state: the 32 general registers, the flags, the program
counter (a byte offset into the code buffer), and the two VM arrays
the generated code addresses through X1/X2. -/
structure Machine where
  x : List Nat
  flags : Flags
  pc : Nat
  vmregs : List Nat
  locals : List Nat
deriving Repr, DecidableEq

/-- Read register `r`; register 31 reads as the zero register. -/
def Machine.getX (m : Machine) (r : Nat) : Nat :=
  if r = 31 then 0 else m.x.getD r 0

/-- Write register `r` (reduced to 64 bits); writes to register 31 are
discarded (zero register). -/
def Machine.setX (m : Machine) (r v : Nat) : Machine :=
  if r = 31 then m else { m with x := m.x.set r (v % 2 ^ 64) }

/-- Advance the program counter over one 4-byte instruction. -/
def Machine.adv (m : Machine) : Machine := { m with pc := m.pc + 4 }

/-- Load the 64-bit word at `addr`, which must fall inside one of the
two VM arrays and be 8-byte aligned relative to its base. -/
def Machine.readMem (m : Machine) (addr : Nat) : Option Nat :=
  if regsBase ≤ addr ∧ addr < regsBase + 8 * m.vmregs.length ∧ (addr - regsBase) % 8 = 0 then
    some (m.vmregs.getD ((addr - regsBase) / 8) 0)
  else if localsBase ≤ addr ∧ addr < localsBase + 8 * m.locals.length ∧
      (addr - localsBase) % 8 = 0 then
    some (m.locals.getD ((addr - localsBase) / 8) 0)
  else none

/-- Store the 64-bit value `v` at `addr` (see `Machine.readMem`). -/
def Machine.writeMem (m : Machine) (addr v : Nat) : Option Machine :=
  if regsBase ≤ addr ∧ addr < regsBase + 8 * m.vmregs.length ∧ (addr - regsBase) % 8 = 0 then
    some { m with vmregs := m.vmregs.set ((addr - regsBase) / 8) (v % 2 ^ 64) }
  else if localsBase ≤ addr ∧ addr < localsBase + 8 * m.locals.length ∧
      (addr - localsBase) % 8 = 0 then
    some { m with locals := m.locals.set ((addr - localsBase) / 8) (v % 2 ^ 64) }
  else none

/-- Outcome of one instruction: continue, or return to the host
(RET). -/
inductive StepRes where
  | next (m : Machine)
  | halt (m : Machine)
deriving Repr, DecidableEq

/-- Decode and execute the 32-bit instruction `w`. -/
def decodeExec (w : Nat) (m : Machine) : Option StepRes :=
  if bitfield w 21 11 = 0b10011010100 ∧ bitfield w 10 2 = 0b01 then
    -- CSINC: Xd = cond ? Xn : Xm + 1
    let rm := bitfield w 16 5
    let cond := bitfield w 12 4
    let rn := bitfield w 5 5
    let rd := bitfield w 0 5
    let v := if condHolds cond m.flags then m.getX rn else (m.getX rm + 1) % 2 ^ 64
    some (.next (m.setX rd v).adv)
  else if bitfield w 21 11 = 0b11101011000 ∧ bitfield w 10 6 = 0 then
    -- SUBS (shifted register, shift amount 0); CMP when Rd = 31
    let rm := bitfield w 16 5
    let rn := bitfield w 5 5
    let rd := bitfield w 0 5
    let a := m.getX rn
    let b := m.getX rm
    some (.next ({ m.setX rd (subResult a b) with flags := subFlags a b }).adv)
  else if bitfield w 22 10 = 0b1111000100 then
    -- SUBS (immediate); CMP when Rd = 31
    let imm12 := bitfield w 10 12
    let rn := bitfield w 5 5
    let rd := bitfield w 0 5
    let a := m.getX rn
    some (.next ({ m.setX rd (subResult a imm12) with flags := subFlags a imm12 }).adv)
  else if bitfield w 21 11 = 0b11010010100 then
    -- MOVZ (64-bit, hw = 0)
    some (.next ((m.setX (bitfield w 0 5) (bitfield w 5 16)).adv))
  else if bitfield w 23 9 = 0b111100101 then
    -- MOVK (64-bit): replace halfword `hw` keeping the others
    let hw := bitfield w 21 2
    let imm16 := bitfield w 5 16
    let rd := bitfield w 0 5
    let old := m.getX rd
    let v := old - old / 2 ^ (16 * hw) % 2 ^ 16 * 2 ^ (16 * hw) + imm16 * 2 ^ (16 * hw)
    some (.next ((m.setX rd v).adv))
  else if bitfield w 22 10 = 0b1111100101 then
    -- LDR (immediate, unsigned offset, 64-bit): offset scaled by 8
    let imm12 := bitfield w 10 12
    let rn := bitfield w 5 5
    let rt := bitfield w 0 5
    match m.readMem (m.getX rn + 8 * imm12) with
    | some v => some (.next ((m.setX rt v).adv))
    | none => none
  else if bitfield w 22 10 = 0b1111100100 then
    -- STR (immediate, unsigned offset, 64-bit)
    let imm12 := bitfield w 10 12
    let rn := bitfield w 5 5
    let rt := bitfield w 0 5
    match m.writeMem (m.getX rn + 8 * imm12) (m.getX rt) with
    | some m' => some (.next m'.adv)
    | none => none
  else if bitfield w 22 10 = 0b1001000100 then
    -- ADD (immediate, 64-bit)
    let imm12 := bitfield w 10 12
    let rn := bitfield w 5 5
    let rd := bitfield w 0 5
    some (.next ((m.setX rd ((m.getX rn + imm12) % 2 ^ 64)).adv))
  else if bitfield w 22 10 = 0b1101000100 then
    -- SUB (immediate, 64-bit)
    let imm12 := bitfield w 10 12
    let rn := bitfield w 5 5
    let rd := bitfield w 0 5
    some (.next ((m.setX rd (subResult (m.getX rn) imm12)).adv))
  else if bitfield w 10 22 = 0b1101011001011111000000 then
    -- RET: return to the host
    some (.halt m)
  else if bitfield w 10 22 = 0b1101011000111111000000 then
    -- BLR: a call out of the generated code; not modelled
    none
  else if w / 2 ^ 26 = 0b000101 then
    -- B: PC-relative branch, imm26 signed words
    let imm : Nat := w % 2 ^ 26
    let d : Int := if imm < 2 ^ 25 then (imm : Int) else (imm : Int) - 2 ^ 26
    let pcI : Int := (m.pc : Int) + 4 * d
    if 0 ≤ pcI then some (.next { m with pc := pcI.toNat }) else none
  else if w / 2 ^ 24 = 0b01010100 ∧ bitfield w 4 1 = 0 then
    -- B.cond: imm19 signed words
    let imm := bitfield w 5 19
    let cond := bitfield w 0 4
    if condHolds cond m.flags then
      let d : Int := if imm < 2 ^ 18 then (imm : Int) else (imm : Int) - 2 ^ 19
      let pcI : Int := (m.pc : Int) + 4 * d
      if 0 ≤ pcI then some (.next { m with pc := pcI.toNat }) else none
    else some (.next m.adv)
  else if w = Arm64Writer.nop_word then
    some (.next m.adv)
  else
    -- BRK and every unallocated encoding: a trap, not modelled further
    none

/-- Fetch and execute the instruction at the current PC. -/
def step (code : List Nat) (m : Machine) : Option StepRes :=
  if m.pc + 4 ≤ code.length then decodeExec (word32At code m.pc) m else none

/-- Run until RET, with fuel. -/
def run (code : List Nat) : Nat → Machine → Option Machine
  | 0, _ => none
  | fuel + 1, m =>
    match step code m with
    | some (.next m') => run code fuel m'
    | some (.halt m') => some m'
    | none => none

/-- Run a fixed number of instructions of straight-line code (stopping
early at RET), returning the final machine state. -/
def runSteps (code : List Nat) : Nat → Machine → Option Machine
  | 0, m => some m
  | n + 1, m =>
    match step code m with
    | some (.next m') => runSteps code n m'
    | some (.halt m') => some m'
    | none => none

end Arm64

/-- The machine state in which `Executable::run`
(src/jit/executable.rs:56-74) enters the generated code: X0 points at
the VM, X1 at `registers`, X2 at `locals`; PC at the first byte.  The
two array base pointers take the model addresses. -/
def initMachine (vm : VMState) : Arm64.Machine :=
  { x := (((List.replicate 32 0).set 0 (2 ^ 22)).set 1 Arm64.regsBase).set 2 Arm64.localsBase,
    flags := ⟨false, false, false, false⟩, pc := 0,
    vmregs := vm.registers, locals := vm.locals }

/-- The JIT pipeline end to end: compile the program, run the generated
code on the VM state, and read the arrays back (they are shared
in-place with the host). -/
def jitRun (P : Program) (vm : VMState) (fuel : Nat) : Option VMState :=
  match Jit.compile P with
  | .ok j => (Arm64.run j.code fuel (initMachine vm)).map fun m => ⟨m.vmregs, m.locals⟩
  | .error _ => none

/-- Execute the two-instruction sequence `Assembler::less_than(dst, src)`
emits, on a machine whose `dst`/`src` registers hold `a`/`b`, and read
back `dst`. -/
def lessThanRun (dst src : Reg) (a b : Nat) : Option Nat :=
  let code := (Assembler.less_than ⟨[], []⟩ dst src).out
  let m0 : Arm64.Machine :=
    ⟨((List.replicate 32 0).set dst.toNat a).set src.toNat b,
      ⟨false, false, false, false⟩, 0, [], []⟩
  (Arm64.runSteps code 2 m0).map fun m => m.getX dst.toNat

/-- The CLI modes of `main` (src/main.rs:6-41). -/
inductive CliMode where
  | runJitSample
  | runInterpSample
  | runNopStub
  | usage
deriving Repr, DecidableEq

/-- The dispatch of `main` on the first CLI argument
(`std::env::args().skip(1).next()`): `--no-jit`, `--nop`, no argument,
and the catch-all `Some(_)` arm which prints usage and exits 1. -/
def mainMode : Option String → CliMode
  | some s => if s = "--no-jit" then .runInterpSample
      else if s = "--nop" then .runNopStub
      else .usage
  | none => .runJitSample

/-- The process exit code of each CLI mode's dispatch: the `Some(_)`
arm calls `std::process::exit(1)`; the other arms fall through (exit
0 when the run succeeds). -/
def CliMode.exitCode : CliMode → Nat
  | .usage => 1
  | _ => 0

/-- Site `s1`'s four instruction bytes lie strictly before `s2`'s
(lowering records sites in increasing order, at least 4 bytes apart). -/
def siteGap (s1 s2 : Nat × Nat) : Prop := s1.2 + 4 ≤ s2.2

/-- The instruction words of two branch sites do not overlap. -/
def siteSep (s1 s2 : Nat × Nat) : Prop := s1.2 + 4 ≤ s2.2 ∨ s2.2 + 4 ≤ s1.2

/-- The invariant the lowering pass maintains: recorded branch sites
are in strictly increasing order, at least one instruction apart, and
every site's four bytes lie inside the emitted buffer. -/
def AsmInv (st : AsmSt) : Prop :=
  List.Pairwise siteGap st.sites ∧ ∀ s ∈ st.sites, s.2 + 4 ≤ st.out.length

/-!
## Supporting lemmas
-/

/-- The loop body on a field of width below 32 (the encoder's domain):
the shift-amount masking is invisible, and the step reduces to the
plain check-then-accumulate form. -/
theorem writeGo_cons_small (f : BitIndex) (rest : List BitIndex) (bp v : Nat)
    (hb32 : f.bits < 32) (hv64 : f.value < 2 ^ 64) (hbp : bp + f.bits < 2 ^ 32) :
    BitwiseWriter.writeGo (f :: rest) bp v true =
      (if 2 ^ f.bits ≤ f.value then .error .overflow
       else BitwiseWriter.writeGo rest (bp + f.bits)
        (v * 2 ^ f.bits % 2 ^ 32 + f.value % 2 ^ f.bits) (decide (bp < 32))) := by
  have h1 : f.bits % 2 ^ 32 = f.bits := Nat.mod_eq_of_lt (by omega)
  have h2 : f.bits % 64 = f.bits := Nat.mod_eq_of_lt (by omega)
  have h3 : f.bits % 32 = f.bits := Nat.mod_eq_of_lt hb32
  have h4 : f.value % 2 ^ 64 = f.value := Nat.mod_eq_of_lt hv64
  have h5 : f.value % 2 ^ 32 % 2 ^ f.bits = f.value % 2 ^ f.bits := by
    rw [Nat.mod_mod_of_dvd _ (Nat.pow_dvd_pow 2 (by omega))]
  rw [BitwiseWriter.writeGo]
  simp only [h1, h2, h3, h4, h5, Nat.mod_eq_of_lt hbp]
  have hcond : (f.value / 2 ^ f.bits ≠ 0) = (2 ^ f.bits ≤ f.value) := by
    rw [eq_iff_iff, ne_eq, Nat.div_eq_zero_iff (Nat.pos_pow_of_pos _ (by norm_num)), not_lt]
  simp only [hcond]

theorem writeGo_ok (l : List BitIndex) : ∀ bp v,
    (∀ f ∈ l, 0 < f.bits ∧ f.bits < 32 ∧ f.value < 2 ^ f.bits) →
    bp + sumBits l = 32 → v < 2 ^ bp →
    BitwiseWriter.writeGo l bp v true =
      .ok (32, l.foldl (fun a f => a * 2 ^ f.bits + f.value) v) := by
  induction l with
  | nil =>
    intro bp v _ hsum _
    simp [sumBits] at hsum
    subst hsum
    simp [BitwiseWriter.writeGo]
  | cons f rest ih =>
    intro bp v hf hsum hv
    have hfb := hf f (by simp)
    have hsum' : bp + f.bits + sumBits rest = 32 := by
      simp [sumBits] at hsum ⊢; omega
    have hble : bp + f.bits ≤ 32 := by omega
    have hbp : bp < 32 := by
      have := hfb.1; omega
    have hvmul : v * 2 ^ f.bits < 2 ^ 32 := by
      calc v * 2 ^ f.bits < 2 ^ bp * 2 ^ f.bits := by
            exact Nat.mul_lt_mul_of_lt_of_le hv (le_refl _) (Nat.pos_pow_of_pos _ (by norm_num))
        _ = 2 ^ (bp + f.bits) := (pow_add 2 bp f.bits).symm
        _ ≤ 2 ^ 32 := Nat.pow_le_pow_right (by norm_num) hble
    have hnof : ¬ 2 ^ f.bits ≤ f.value := not_le.mpr hfb.2.2
    have hv' : v * 2 ^ f.bits + f.value < 2 ^ (bp + f.bits) := by
      have : v * 2 ^ f.bits + f.value < (v + 1) * 2 ^ f.bits := by
        rw [add_mul, one_mul]; exact Nat.add_lt_add_left hfb.2.2 _
      calc v * 2 ^ f.bits + f.value < (v + 1) * 2 ^ f.bits := this
        _ ≤ 2 ^ bp * 2 ^ f.bits := Nat.mul_le_mul_right _ hv
        _ = 2 ^ (bp + f.bits) := (pow_add 2 bp f.bits).symm
    rw [writeGo_cons_small f rest bp v hfb.2.1
        (lt_trans hfb.2.2 (Nat.pow_lt_pow_right (by norm_num) (by omega))) (by omega)]
    simp only [hnof, if_false, Nat.mod_eq_of_lt hvmul, Nat.mod_eq_of_lt hfb.2.2,
      decide_eq_true hbp]
    rw [ih (bp + f.bits) _ (fun g hg => hf g (by simp [hg])) hsum' hv']
    simp

theorem writeGo_overflow (l : List BitIndex) : ∀ bp v,
    (∀ f ∈ l, 0 < f.bits ∧ f.bits < 32 ∧ f.value < 2 ^ 64) →
    bp + sumBits l = 32 → (∃ f ∈ l, 2 ^ f.bits ≤ f.value) →
    BitwiseWriter.writeGo l bp v true = .error .overflow := by
  induction l with
  | nil => intro bp v _ _ hex; simp at hex
  | cons f rest ih =>
    intro bp v hpos hsum hex
    have hfb := hpos f (by simp)
    have hsum' : bp + f.bits + sumBits rest = 32 := by
      simp [sumBits] at hsum ⊢; omega
    rw [writeGo_cons_small f rest bp v hfb.2.1 hfb.2.2 (by omega)]
    by_cases hov : 2 ^ f.bits ≤ f.value
    · simp [hov]
    · obtain ⟨g, hg, hgov⟩ := hex
      rcases List.mem_cons.mp hg with rfl | hgr
      · exact absurd hgov hov
      · have hrest1 : 1 ≤ sumBits rest := by
          have hgpos := hpos g (by simp [hgr])
          have : g.bits ≤ sumBits rest := by
            simp [sumBits]
            exact List.single_le_sum (fun x _ => Nat.zero_le x) _
              (List.mem_map_of_mem _ hgr)
          omega
        have hbp : bp < 32 := by
          have := hfb.1; omega
        simp only [hov, if_false, decide_eq_true hbp]
        exact ih _ _ (fun g' hg' => hpos g' (by simp [hg'])) hsum' ⟨g, hgr, hgov⟩

theorem writeGo_short (l : List BitIndex) : ∀ bp v,
    (∀ f ∈ l, 0 < f.bits ∧ f.bits < 32 ∧ f.value < 2 ^ f.bits) →
    bp + sumBits l ≠ 32 → bp < 2 ^ 31 →
    BitwiseWriter.writeGo l bp v true = .error .short ∨
      ∃ p, BitwiseWriter.writeGo l bp v true = .ok p ∧ p.1 ≠ 32 := by
  induction l with
  | nil =>
    intro bp v _ hsum _
    simp [sumBits] at hsum
    by_cases hbp : bp < 32
    · left; simp [BitwiseWriter.writeGo, hbp]
    · right; exact ⟨(bp, v), by simp [BitwiseWriter.writeGo, hbp], hsum⟩
  | cons f rest ih =>
    intro bp v hf hsum hbp31
    have hfb := hf f (by simp)
    have hv64 : f.value < 2 ^ 64 :=
      lt_trans hfb.2.2 (Nat.pow_lt_pow_right (by norm_num) (by omega))
    have hnof : ¬ 2 ^ f.bits ≤ f.value := not_le.mpr hfb.2.2
    have hsum' : bp + f.bits + sumBits rest ≠ 32 := by
      simp [sumBits] at hsum ⊢; omega
    rw [writeGo_cons_small f rest bp v hfb.2.1 hv64 (by omega)]
    by_cases hbp : bp < 32
    · simp only [hnof, if_false, decide_eq_true hbp]
      exact ih _ _ (fun g hg => hf g (by simp [hg])) hsum' (by omega)
    · right
      simp only [hnof, if_false, decide_eq_false hbp]
      refine ⟨(bp + f.bits, v * 2 ^ f.bits % 2 ^ 32 + f.value % 2 ^ f.bits),
        by simp [BitwiseWriter.writeGo], ?_⟩
      have := hfb.1
      omega

/-- Success characterization of the packer on the encoder's domain
(field widths 1..31): the word is the MSB-first concatenation of the
fields. -/
theorem write_ok (l : List BitIndex) (hpos : ∀ f ∈ l, 0 < f.bits ∧ f.bits < 32)
    (hsum : sumBits l = 32) (hfit : ∀ f ∈ l, f.value < 2 ^ f.bits) :
    BitwiseWriter.write l = .ok (l.foldl (fun a f => a * 2 ^ f.bits + f.value) 0) := by
  rw [BitwiseWriter.write,
    writeGo_ok l 0 0 (fun f hf => ⟨(hpos f hf).1, (hpos f hf).2, hfit f hf⟩) (by omega)
      (by norm_num)]
  simp

theorem write_overflow_err (l : List BitIndex)
    (hpos : ∀ f ∈ l, 0 < f.bits ∧ f.bits < 32 ∧ f.value < 2 ^ 64)
    (hsum : sumBits l = 32) (hex : ∃ f ∈ l, 2 ^ f.bits ≤ f.value) :
    BitwiseWriter.write l = .error .overflow := by
  rw [BitwiseWriter.write, writeGo_overflow l 0 0 hpos (by omega) hex]

theorem write_short_err (l : List BitIndex)
    (hfit : ∀ f ∈ l, 0 < f.bits ∧ f.bits < 32 ∧ f.value < 2 ^ f.bits)
    (hsum : sumBits l ≠ 32) :
    BitwiseWriter.write l = .error .short := by
  rcases writeGo_short l 0 0 hfit (by omega) (by norm_num) with h | ⟨p, h, hp⟩
  · rw [BitwiseWriter.write, h]
  · rw [BitwiseWriter.write, h]
    simp [hp]

theorem getD_set_self (l : List Nat) (i v : Nat) (h : i < l.length) :
    (l.set i v).getD i 0 = v := by
  simp [List.getD, List.getElem?_set_self', h]

theorem getD_set_ne (l : List Nat) (i j v : Nat) (h : i ≠ j) :
    (l.set i v).getD j 0 = l.getD j 0 := by
  simp [List.getD, List.getElem?_set_ne h]

theorem word32At_pair_0 (w1 w2 : Nat) (h : w1 < 2 ^ 32) :
    word32At (bytesOfWord w1 ++ bytesOfWord w2) 0 = w1 := by
  simp [word32At, bytesOfWord, List.getD]
  omega

theorem word32At_pair_4 (w1 w2 : Nat) (h : w2 < 2 ^ 32) :
    word32At (bytesOfWord w1 ++ bytesOfWord w2) 4 = w2 := by
  simp [word32At, bytesOfWord, List.getD]
  omega

/-- The condition field value `0b1101` (= 13) of the emitted CSINC
together with the flags of a subtraction `x - y` decides exactly
"signed `x ≤ y`": field 13 names the LE condition, and CSINC yields 1
when its condition *fails*, so the emitted instruction is the alias
`CSET dst, GT`. -/
theorem le_flags_iff (x y : Nat) (hx : x < 2 ^ 64) (hy : y < 2 ^ 64) :
    ((x + (2 ^ 64 - y)) % 2 ^ 64 = 0 ∨
      ¬((2 ^ 63 ≤ (x + (2 ^ 64 - y)) % 2 ^ 64) ↔
        (toI64 x - toI64 y < -(2 ^ 63) ∨ (2 ^ 63 : Int) ≤ toI64 x - toI64 y)))
    ↔ toI64 x ≤ toI64 y := by
  have hx' : x % 2 ^ 64 = x := Nat.mod_eq_of_lt hx
  have hy' : y % 2 ^ 64 = y := Nat.mod_eq_of_lt hy
  simp only [toI64, hx', hy']
  split_ifs <;> omega

theorem condHolds_13_subFlags (x y : Nat) (hx : x < 2 ^ 64) (hy : y < 2 ^ 64) :
    Arm64.condHolds 13 (Arm64.subFlags x y) = decide (toI64 x ≤ toI64 y) := by
  have hx' : x % 2 ^ 64 = x := Nat.mod_eq_of_lt hx
  have hy' : y % 2 ^ 64 = y := Nat.mod_eq_of_lt hy
  by_cases hz : (x + (2 ^ 64 - y)) % 2 ^ 64 = 0 <;>
    by_cases hn : 2 ^ 63 ≤ (x + (2 ^ 64 - y)) % 2 ^ 64 <;>
      by_cases hv : (toI64 x - toI64 y < -(2 ^ 63) ∨ (2 ^ 63 : Int) ≤ toI64 x - toI64 y) <;>
        (simp only [Arm64.condHolds, Arm64.subFlags, hx', hy', hz, hn, hv]
         rw [Bool.eq_iff_iff]
         norm_num
         simp only [toI64, hx', hy'] at hv ⊢ <;> split_ifs at hv ⊢ <;> omega)

theorem setX_31 (m : Arm64.Machine) (v : Nat) : m.setX 31 v = m := by
  simp [Arm64.Machine.setX]

theorem decodeExec_subs_reg (w : Nat) (m : Arm64.Machine)
    (h1 : ¬(bitfield w 21 11 = 0b10011010100 ∧ bitfield w 10 2 = 0b01))
    (h2 : bitfield w 21 11 = 0b11101011000) (h3 : bitfield w 10 6 = 0) :
    Arm64.decodeExec w m = some (.next (({ m.setX (bitfield w 0 5)
        (Arm64.subResult (m.getX (bitfield w 5 5)) (m.getX (bitfield w 16 5))) with
      flags := Arm64.subFlags (m.getX (bitfield w 5 5)) (m.getX (bitfield w 16 5)) }).adv)) := by
  rw [Arm64.decodeExec, if_neg h1, if_pos ⟨h2, h3⟩]

theorem decodeExec_csinc (w : Nat) (m : Arm64.Machine)
    (h : bitfield w 21 11 = 0b10011010100 ∧ bitfield w 10 2 = 0b01) :
    Arm64.decodeExec w m = some (.next ((m.setX (bitfield w 0 5)
      (if Arm64.condHolds (bitfield w 12 4) m.flags then m.getX (bitfield w 5 5)
       else (m.getX (bitfield w 16 5) + 1) % 2 ^ 64)).adv)) := by
  rw [Arm64.decodeExec, if_pos h]

/-- Symbolic execution of `CMP` + `CSET` over two data registers `d`
and `s` holding `a` and `b`: the destination ends up 1 exactly when
`b` is signed-greater-than `a`. -/
theorem runLt_eval (d s : Nat) (hd : d < 31) (hs : s < 31) (hne : d ≠ s)
    (a b : Nat) (ha : a < 2 ^ 64) (hb : b < 2 ^ 64) :
    ((Arm64.runSteps
        (bytesOfWord (0b11101011000 * 2 ^ 21 + d * 2 ^ 16 + s * 2 ^ 5 + 31) ++
          bytesOfWord (0b1001101010011111 * 2 ^ 16 + 13 * 2 ^ 12 + 63 * 2 ^ 5 + d)) 2
        { x := ((List.replicate 32 0).set d a).set s b,
          flags := ⟨false, false, false, false⟩, pc := 0, vmregs := [], locals := [] }).map
      fun m => m.getX d) = some (if toI64 a < toI64 b then 1 else 0) := by
  have hW1lt : (0b11101011000 * 2 ^ 21 + d * 2 ^ 16 + s * 2 ^ 5 + 31 : Nat) < 2 ^ 32 := by omega
  have hW2lt : (0b1001101010011111 * 2 ^ 16 + 13 * 2 ^ 12 + 63 * 2 ^ 5 + d : Nat) < 2 ^ 32 := by
    omega
  generalize hW1 : (0b11101011000 * 2 ^ 21 + d * 2 ^ 16 + s * 2 ^ 5 + 31 : Nat) = W1 at *
  generalize hW2 : (0b1001101010011111 * 2 ^ 16 + 13 * 2 ^ 12 + 63 * 2 ^ 5 + d : Nat) = W2 at *
  have hlen : (bytesOfWord W1 ++ bytesOfWord W2).length = 8 := by simp [bytesOfWord]
  have hw0 := word32At_pair_0 W1 W2 hW1lt
  have hw4 := word32At_pair_4 W1 W2 hW2lt
  have hbf1a : ¬(bitfield W1 21 11 = 0b10011010100 ∧ bitfield W1 10 2 = 0b01) := by
    rw [← hW1]; simp only [bitfield]; omega
  have hbf1b : bitfield W1 21 11 = 0b11101011000 := by
    rw [← hW1]; simp only [bitfield]; omega
  have hbf1c : bitfield W1 10 6 = 0 := by rw [← hW1]; simp only [bitfield]; omega
  have hbf1rm : bitfield W1 16 5 = d := by rw [← hW1]; simp only [bitfield]; omega
  have hbf1rn : bitfield W1 5 5 = s := by rw [← hW1]; simp only [bitfield]; omega
  have hbf1rd : bitfield W1 0 5 = 31 := by rw [← hW1]; simp only [bitfield]; omega
  have hbf2a : bitfield W2 21 11 = 0b10011010100 ∧ bitfield W2 10 2 = 0b01 := by
    rw [← hW2]; constructor <;> (simp only [bitfield]; omega)
  have hbf2rm : bitfield W2 16 5 = 31 := by rw [← hW2]; simp only [bitfield]; omega
  have hbf2cond : bitfield W2 12 4 = 13 := by rw [← hW2]; simp only [bitfield]; omega
  have hbf2rn : bitfield W2 5 5 = 31 := by rw [← hW2]; simp only [bitfield]; omega
  have hbf2rd : bitfield W2 0 5 = d := by rw [← hW2]; simp only [bitfield]; omega
  have hgs : (((List.replicate 32 0).set d a).set s b).getD s 0 = b :=
    getD_set_self _ s b (by simp; omega)
  have hgd : (((List.replicate 32 0).set d a).set s b).getD d 0 = a := by
    rw [getD_set_ne _ s d b fun h => hne h.symm]
    exact getD_set_self _ d a (by simp; omega)
  have hstep1 : Arm64.step (bytesOfWord W1 ++ bytesOfWord W2)
      (⟨((List.replicate 32 0).set d a).set s b, ⟨false, false, false, false⟩, 0, [], []⟩ :
        Arm64.Machine) =
      some (.next (⟨((List.replicate 32 0).set d a).set s b, Arm64.subFlags b a, 4, [], []⟩ :
        Arm64.Machine)) := by
    rw [Arm64.step]
    rw [show (⟨((List.replicate 32 0).set d a).set s b, ⟨false, false, false, false⟩, 0, [],
        []⟩ : Arm64.Machine).pc = 0 from rfl, hw0]
    rw [if_pos (by rw [hlen]; norm_num)]
    rw [decodeExec_subs_reg W1 _ hbf1a hbf1b hbf1c]
    rw [hbf1rd, hbf1rn, hbf1rm]
    rw [setX_31]
    simp only [Arm64.Machine.getX, Arm64.Machine.adv]
    rw [if_neg (show ¬s = 31 by omega), if_neg (show ¬d = 31 by omega), hgs, hgd]
  have hstep2 : Arm64.step (bytesOfWord W1 ++ bytesOfWord W2)
      (⟨((List.replicate 32 0).set d a).set s b, Arm64.subFlags b a, 4, [], []⟩ :
        Arm64.Machine) =
      some (.next (⟨(((List.replicate 32 0).set d a).set s b).set d
          (if Arm64.condHolds 13 (Arm64.subFlags b a) then 0 else 1),
        Arm64.subFlags b a, 8, [], []⟩ : Arm64.Machine)) := by
    rw [Arm64.step]
    rw [show (⟨((List.replicate 32 0).set d a).set s b, Arm64.subFlags b a, 4, [], []⟩ :
        Arm64.Machine).pc = 4 from rfl, hw4]
    rw [if_pos (by rw [hlen])]
    rw [decodeExec_csinc W2 _ hbf2a]
    rw [hbf2rd, hbf2rn, hbf2rm, hbf2cond]
    simp only [Arm64.Machine.setX, Arm64.Machine.getX, Arm64.Machine.adv]
    rw [if_neg (show ¬d = 31 by omega)]
    norm_num
    split_ifs <;> norm_num
  simp only [Arm64.runSteps, hstep1, hstep2]
  have hfin : ((((List.replicate 32 0).set d a).set s b).set d
      (if Arm64.condHolds 13 (Arm64.subFlags b a) then 0 else 1)).getD d 0 =
      (if Arm64.condHolds 13 (Arm64.subFlags b a) then 0 else 1) :=
    getD_set_self _ d _ (by simp; omega)
  simp only [Option.map, Arm64.Machine.getX]
  rw [if_neg (show ¬d = 31 by omega), hfin]
  rw [condHolds_13_subFlags b a hb ha]
  by_cases hle : toI64 b ≤ toI64 a
  · rw [if_pos (by simp [hle]), if_neg (by omega)]
  · rw [if_neg (by simp [hle]), if_pos (by omega)]

/-!
## The verified properties
-/

/-- C5 (amended): on the encoder's domain — field widths between 1 and
31, values in the `usize` range — the packer returns the MSB-first
concatenation when the widths sum to exactly 32 and every value fits;
it fails with the overflow panic when the widths sum to 32 and some
field's value is at least `2 ^ bits`; and it fails with the short
error when no field overflows and the widths do not sum to 32.  Every
restriction is forced by `write_overflow_beyond_scan`: without the
width-sum condition the overflow clause fails (the loop stops scanning
one field after the running width reaches 32); a width-32 field is
packed as 0, not as its value (Rust's shift-amount masking turns
`value << 32` into `value << 0` and the mask into 0); and zero-width
fields can make the loop settle at bit position 32 and return `Ok`
although the widths do not sum to 32. -/
theorem write_packs_msb_first (l : List BitIndex)
    (hdom : ∀ f ∈ l, 0 < f.bits ∧ f.bits < 32 ∧ f.value < 2 ^ 64) :
    ((sumBits l = 32 ∧ ∀ f ∈ l, f.value < 2 ^ f.bits) →
      BitwiseWriter.write l = .ok (l.foldl (fun a f => a * 2 ^ f.bits + f.value) 0)) ∧
    ((sumBits l = 32 ∧ ∃ f ∈ l, 2 ^ f.bits ≤ f.value) →
      BitwiseWriter.write l = .error .overflow) ∧
    (((∀ f ∈ l, f.value < 2 ^ f.bits) ∧ sumBits l ≠ 32) →
      BitwiseWriter.write l = .error .short) :=
  ⟨fun ⟨hs, hfit⟩ =>
      write_ok l (fun f hf => ⟨(hdom f hf).1, (hdom f hf).2.1⟩) hs hfit,
   fun ⟨hs, hex⟩ => write_overflow_err l hdom hs hex,
   fun ⟨hfit, hs⟩ =>
      write_short_err l (fun f hf => ⟨(hdom f hf).1, (hdom f hf).2.1, hfit f hf⟩) hs⟩

/-- Witness for `write_packs_msb_first`: packing the fields of a `B`
instruction with imm26 = 1 gives the expected word. -/
theorem write_packs_msb_first_witness :
    BitwiseWriter.write [⟨6, 5⟩, ⟨26, 1⟩] = .ok 335544321 := by
  have h := (write_packs_msb_first [⟨6, 5⟩, ⟨26, 1⟩] (by decide)).1 ⟨by decide, by decide⟩
  rw [h]; decide

/-- C5 counterexample, three instances against the claim as stated.
(1) A field list whose last field overflows its 2-bit width
(`5 ≥ 2 ^ 2`) is reported as `short`, not as an overflow, because the
loop never scans the field (the widths before it already total
60 ≥ 32).  (2) A single field of width exactly 32 and value 5 — widths
sum to 32, value fits — is packed as `Ok 0`, not as the
concatenation 5: the u32 shift masking turns `value << 32` into
`value << 0` and the mask `(1u32 << 32) - 1` into 0.  (3) With a
zero-width field after a 32-bit one, widths summing to 39 ≠ 32 still
return `Ok`, not `EncodingShort`. -/
theorem write_overflow_beyond_scan :
    (BitwiseWriter.write [⟨20, 0⟩, ⟨20, 0⟩, ⟨20, 0⟩, ⟨2, 5⟩] = .error .short ∧
      (2 : Nat) ^ 2 ≤ 5 ∧
      BitwiseWriter.write [⟨20, 0⟩, ⟨20, 0⟩, ⟨20, 0⟩, ⟨2, 5⟩] ≠ .error .overflow) ∧
    (BitwiseWriter.write [⟨32, 5⟩] = .ok 0 ∧ sumBits [⟨32, 5⟩] = 32 ∧ (5 : Nat) < 2 ^ 32 ∧
      BitwiseWriter.write [⟨32, 5⟩] ≠ .ok 5) ∧
    (BitwiseWriter.write [⟨32, 0⟩, ⟨0, 0⟩, ⟨7, 0⟩] = .ok 0 ∧
      sumBits [⟨32, 0⟩, ⟨0, 0⟩, ⟨7, 0⟩] ≠ 32) := by
  decide

/-- C2 (amended): `Assembler::less_than(dst, src)` emits `CMP src, dst`
followed by a CSET on `dst` whose condition field is `0b1101` — the
encoding of `CSET dst, GT`, not of `CSET dst, LT` — so that after
executing the two instructions `dst` holds 1 exactly when the value in
`src` is signed-GREATER-than the value in `dst`, and 0 otherwise. -/
theorem less_than_emits_cmp_cset_gt (dst src : Reg) (h1 : dst ≠ src) (h2 : dst ≠ .SP)
    (h3 : src ≠ .SP) (a b : Nat) (ha : a < 2 ^ 64) (hb : b < 2 ^ 64) :
    (Assembler.less_than ⟨[], []⟩ dst src).out =
      bytesOfWord (Arm64Writer.cmp_reg_word src dst) ++
        bytesOfWord (Arm64Writer.cset_word dst) ∧
    bitfield (Arm64Writer.cset_word dst) 12 4 = 0b1101 ∧
    lessThanRun dst src a b = some (if toI64 a < toI64 b then 1 else 0) := by
  refine ⟨by simp [Assembler.less_than, AsmSt.emit], ?_, ?_⟩
  · cases dst <;> rfl
  · have hcode : (Assembler.less_than ⟨[], []⟩ dst src).out =
        bytesOfWord (0b11101011000 * 2 ^ 21 + dst.toNat * 2 ^ 16 + src.toNat * 2 ^ 5 + 31) ++
          bytesOfWord (0b1001101010011111 * 2 ^ 16 + 13 * 2 ^ 12 + 63 * 2 ^ 5 + dst.toNat) := by
      cases dst <;> cases src <;> rfl
    have hd' : dst.toNat < 31 := by
      cases dst <;> first | exact absurd rfl h2 | decide
    have hs' : src.toNat < 31 := by
      cases src <;> first | exact absurd rfl h3 | decide
    have hne' : dst.toNat ≠ src.toNat := by
      cases dst <;> cases src <;> first | exact absurd rfl h1 | decide
    simp only [lessThanRun]
    rw [hcode]
    exact runLt_eval dst.toNat src.toNat hd' hs' hne' a b ha hb

/-- Witness for `less_than_emits_cmp_cset_gt` at `dst = GPR0`,
`src = GPR1`, values 0 and 1. -/
theorem less_than_emits_cmp_cset_gt_witness :
    (Assembler.less_than ⟨[], []⟩ .GPR0 .GPR1).out =
      bytesOfWord (Arm64Writer.cmp_reg_word .GPR1 .GPR0) ++
        bytesOfWord (Arm64Writer.cset_word .GPR0) ∧
    bitfield (Arm64Writer.cset_word .GPR0) 12 4 = 0b1101 ∧
    lessThanRun .GPR0 .GPR1 0 1 = some (if toI64 0 < toI64 1 then 1 else 0) :=
  less_than_emits_cmp_cset_gt .GPR0 .GPR1 (by decide) (by decide) (by decide) 0 1
    (by norm_num) (by norm_num)

/-- C2 counterexample: with `dst` holding 0 and `src` holding 1, the
emitted sequence leaves 1 in `dst` although `src` is *not*
signed-less-than `dst` (1 < 0 is false): the condition is GT, not
LT. -/
theorem less_than_sets_one_on_signed_greater :
    lessThanRun .GPR0 .GPR1 0 1 = some 1 ∧ ¬ toI64 1 < toI64 0 := by
  decide

/-- C3 (amended): `emit_push src` is exactly `SUB SP, SP, #64` then
`STR src, [SP, imm12 = 1]`, and `emit_pop (some dst)` is exactly
`LDR dst, [SP, imm12 = 1]` then `ADD SP, SP, #64`: the SP adjustment
of every push and pop is 64 bytes, not 16. -/
theorem push_pop_adjust_sp_by_64 (r : Reg) :
    Arm64Writer.emit_push r =
      bytesOfWord (Arm64Writer.sub_word .SP .SP 64) ++
        bytesOfWord (Arm64Writer.str_word .SP 1 r) ∧
    Arm64Writer.emit_pop (some r) =
      bytesOfWord (Arm64Writer.ldr_word r .SP 1) ++
        bytesOfWord (Arm64Writer.add_word .SP .SP 64) ∧
    bitfield (Arm64Writer.sub_word .SP .SP 64) 22 10 = 0b1101000100 ∧
    bitfield (Arm64Writer.sub_word .SP .SP 64) 10 12 = 64 ∧
    bitfield (Arm64Writer.sub_word .SP .SP 64) 5 5 = 31 ∧
    bitfield (Arm64Writer.sub_word .SP .SP 64) 0 5 = 31 ∧
    bitfield (Arm64Writer.str_word .SP 1 r) 22 10 = 0b1111100100 ∧
    bitfield (Arm64Writer.str_word .SP 1 r) 10 12 = 1 ∧
    bitfield (Arm64Writer.str_word .SP 1 r) 5 5 = 31 ∧
    bitfield (Arm64Writer.str_word .SP 1 r) 0 5 = r.toNat ∧
    bitfield (Arm64Writer.ldr_word r .SP 1) 22 10 = 0b1111100101 ∧
    bitfield (Arm64Writer.ldr_word r .SP 1) 10 12 = 1 ∧
    bitfield (Arm64Writer.ldr_word r .SP 1) 5 5 = 31 ∧
    bitfield (Arm64Writer.ldr_word r .SP 1) 0 5 = r.toNat ∧
    bitfield (Arm64Writer.add_word .SP .SP 64) 22 10 = 0b1001000100 ∧
    bitfield (Arm64Writer.add_word .SP .SP 64) 10 12 = 64 ∧
    bitfield (Arm64Writer.add_word .SP .SP 64) 5 5 = 31 ∧
    bitfield (Arm64Writer.add_word .SP .SP 64) 0 5 = 31 := by
  cases r <;> decide

/-- C3 counterexample: the immediate of the push's SP adjustment is 64,
and the emitted push/pop sequences differ from the 16-byte versions
the claim states. -/
theorem push_is_not_16_byte :
    bitfield (word32At (Arm64Writer.emit_push Reg.GPR0) 0) 10 12 = 64 ∧
    Arm64Writer.emit_push Reg.GPR0 ≠
      bytesOfWord (Arm64Writer.sub_word .SP .SP 16) ++
        bytesOfWord (Arm64Writer.str_word .SP 1 .GPR0) ∧
    Arm64Writer.emit_pop (some Reg.GPR0) ≠
      bytesOfWord (Arm64Writer.ldr_word .GPR0 .SP 1) ++
        bytesOfWord (Arm64Writer.add_word .SP .SP 16) := by
  decide

/-- What `link_and_rewrite` does on a site holding a recognized opcode:
it always succeeds, writing the word built from the wrapped 16-bit
delta. -/
theorem link_and_rewrite_ok (out : List Nat) (t i : Nat) (hb : i + 4 ≤ out.length) :
    (out.getD (i + 3) 0 / 4 = 0b000101 →
      Jit.link_and_rewrite out t i = .ok (Jit.rewrite_instr32 out i
        (0b000101 * 2 ^ 26 +
          Jit.sign_extend_upper_bits (rustDiv (wrapI16 (toI16 t - toI16 i)) 4) 10 * 2 ^ 16 +
          Jit.sign_extend (rustDiv (wrapI16 (toI16 t - toI16 i)) 4) 16))) ∧
    (out.getD (i + 3) 0 / 4 = 0b010101 →
      Jit.link_and_rewrite out t i = .ok (Jit.rewrite_instr32 out i
        (0b01010100 * 2 ^ 24 +
          Jit.sign_extend_upper_bits (rustDiv (wrapI16 (toI16 t - toI16 i)) 4) 3 * 2 ^ 21 +
          Jit.sign_extend (rustDiv (wrapI16 (toI16 t - toI16 i)) 4) 16 * 2 ^ 5))) := by
  have hoff : -(2 ^ 13) ≤ rustDiv (wrapI16 (toI16 t - toI16 i)) 4 ∧
      rustDiv (wrapI16 (toI16 t - toI16 i)) 4 < 2 ^ 13 := by
    have hw : -(2 ^ 15) ≤ wrapI16 (toI16 t - toI16 i) ∧
        wrapI16 (toI16 t - toI16 i) < 2 ^ 15 := by
      unfold wrapI16; omega
    unfold rustDiv
    split_ifs <;> omega
  generalize hOff : rustDiv (wrapI16 (toI16 t - toI16 i)) 4 = off at *
  have hl16 : Jit.sign_extend off 16 < 2 ^ 16 := by
    unfold Jit.sign_extend; split_ifs <;> omega
  constructor
  · intro hop
    have hwr := write_ok
        [⟨6, 0b000101⟩, ⟨10, Jit.sign_extend_upper_bits off 10⟩, ⟨16, Jit.sign_extend off 16⟩]
        (by intro f hf; simp at hf; rcases hf with h | h | h <;> subst h <;> norm_num)
        (by simp [sumBits])
        (by
          intro f hf; simp at hf
          rcases hf with h | h | h <;> subst h <;>
            simp [Jit.sign_extend_upper_bits] <;> first | omega | (split_ifs <;> norm_num))
    rw [Jit.link_and_rewrite, if_pos hb]
    simp only [hop, hOff, if_pos rfl, hwr]
    norm_num [List.foldl]
    ring
  · intro hop
    have hwr := write_ok
        [⟨8, 0b01010100⟩, ⟨3, Jit.sign_extend_upper_bits off 3⟩,
          ⟨16, Jit.sign_extend off 16⟩, ⟨5, 0⟩]
        (by intro f hf; simp at hf; rcases hf with h | h | h | h <;> subst h <;> norm_num)
        (by simp [sumBits])
        (by
          intro f hf; simp at hf
          rcases hf with h | h | h | h <;> subst h <;>
            simp [Jit.sign_extend_upper_bits] <;> first | omega | (split_ifs <;> norm_num))
    rw [Jit.link_and_rewrite, if_pos hb]
    simp only [hop, hOff]
    rw [if_neg (show ¬(21 = 5) by norm_num), if_pos trivial]
    simp only [hwr]
    norm_num [List.foldl]
    ring

/-- C4 (amended): for a site holding a recognized opcode (B or B.cond)
the linker never fails — there is no range check and no
`BranchOutOfRange` error; it always rewrites the site with the word
built from the delta computed by *wrapping 16-bit* subtraction of the
byte offsets, truncating-divided by 4 (deltas outside that range are
encoded silently wrapped). -/
theorem link_always_rewrites (out : List Nat) (t i : Nat) (hb : i + 4 ≤ out.length) :
    (out.getD (i + 3) 0 / 4 = 0b000101 →
      Jit.link_and_rewrite out t i = .ok (Jit.rewrite_instr32 out i
        (0b000101 * 2 ^ 26 +
          Jit.sign_extend_upper_bits (rustDiv (wrapI16 (toI16 t - toI16 i)) 4) 10 * 2 ^ 16 +
          Jit.sign_extend (rustDiv (wrapI16 (toI16 t - toI16 i)) 4) 16))) ∧
    (out.getD (i + 3) 0 / 4 = 0b010101 →
      Jit.link_and_rewrite out t i = .ok (Jit.rewrite_instr32 out i
        (0b01010100 * 2 ^ 24 +
          Jit.sign_extend_upper_bits (rustDiv (wrapI16 (toI16 t - toI16 i)) 4) 3 * 2 ^ 21 +
          Jit.sign_extend (rustDiv (wrapI16 (toI16 t - toI16 i)) 4) 16 * 2 ^ 5))) :=
  link_and_rewrite_ok out t i hb

/-- Witness for `link_always_rewrites`: linking a `B` placeholder at
offset 0 to target offset 8. -/
theorem link_always_rewrites_witness :
    Jit.link_and_rewrite (bytesOfWord (Arm64Writer.branch_word 0xdeadaf)) 8 0 =
      .ok (Jit.rewrite_instr32 (bytesOfWord (Arm64Writer.branch_word 0xdeadaf)) 0
        (0b000101 * 2 ^ 26 +
          Jit.sign_extend_upper_bits (rustDiv (wrapI16 (toI16 8 - toI16 0)) 4) 10 * 2 ^ 16 +
          Jit.sign_extend (rustDiv (wrapI16 (toI16 8 - toI16 0)) 4) 16)) :=
  (link_always_rewrites (bytesOfWord (Arm64Writer.branch_word 0xdeadaf)) 8 0
    (by decide)).1 (by decide)

/-- C4 counterexample: a true word delta of `2 ^ 25` does not fit the
signed 26-bit immediate of `B`, yet the linker succeeds (writing a
wrapped delta of 0) instead of failing. -/
theorem link_out_of_range_silently_wraps :
    ((2 ^ 27 : Int) - 0) / 4 = 2 ^ 25 ∧
    ¬(-(2 ^ 25) ≤ ((2 ^ 27 : Int) - 0) / 4 ∧ ((2 ^ 27 : Int) - 0) / 4 < 2 ^ 25) ∧
    Jit.link_and_rewrite (bytesOfWord (Arm64Writer.branch_word 0xdeadaf)) (2 ^ 27) 0 =
      .ok [0, 0, 0, 20] := by
  decide

/-- C6: the four linked-branch encodings the spec states — a forward
`B` over 4 bytes has imm26 = +1; a self-loop has imm26 = 0; a backward
`B` over 4 bytes has imm26 all-ones; a back-edge of −5 words has low
26 bits `0x3FFFFFB`. -/
theorem linked_branch_encodings :
    word32At ((Jit.link_and_rewrite
        (bytesOfWord (Arm64Writer.branch_word 0xdeadaf)) 4 0).toOption.getD []) 0 % 2 ^ 26
      = 1 ∧
    word32At ((Jit.link_and_rewrite
        (bytesOfWord (Arm64Writer.branch_word 0xdeadaf)) 0 0).toOption.getD []) 0 % 2 ^ 26
      = 0 ∧
    word32At ((Jit.link_and_rewrite
        (bytesOfWord Arm64Writer.nop_word ++ bytesOfWord (Arm64Writer.branch_word 0xdeadaf))
        0 4).toOption.getD []) 4 % 2 ^ 26 = 2 ^ 26 - 1 ∧
    word32At ((Jit.link_and_rewrite
        (List.replicate 20 0 ++ bytesOfWord (Arm64Writer.branch_word 0xdeadaf))
        0 20).toOption.getD []) 20 % 2 ^ 26 = 0x3FFFFFB := by
  decide

/-- C1: on the two-block program `[LoadImmediate 1; Jump b2]`,
`b2 = [Increment; Exit]` and a fresh `VM::new(8, 1)` state, the
interpreter terminates with `registers[0] = 1` — it skips the
`Increment` because the jump helper's reset of `instruction_index` is
followed by the loop's `+= 1` — while the compiled code executes the
full target block and leaves `registers[0] = 2`.  The two `registers`
arrays differ, refuting byte-identical equivalence. -/
theorem interp_jit_diverge_on_jump :
    run_interpreted ⟨[[.loadImmediate 1, .jump 1], [.increment, .exit]]⟩
        ⟨List.replicate 8 0, [0]⟩ 20 =
      some (.ok ⟨[1, 0, 0, 0, 0, 0, 0, 0], [0]⟩) ∧
    jitRun ⟨[[.loadImmediate 1, .jump 1], [.increment, .exit]]⟩
        ⟨List.replicate 8 0, [0]⟩ 20 =
      some ⟨[2, 0, 0, 0, 0, 0, 0, 0], [0]⟩ := by
  decide

/-- C8: incrementing from `u64::MAX` wraps to 0, both in the
interpreter (`.0 += 1` with release-profile wrapping) and when running
the emitted `LDR; ADD #1; STR` sequence, with no error. -/
theorem increment_wraps_to_zero :
    run_interpreted ⟨[[.increment, .exit]]⟩
        ⟨[2 ^ 64 - 1, 0, 0, 0, 0, 0, 0, 0], [0]⟩ 8 =
      some (.ok ⟨[0, 0, 0, 0, 0, 0, 0, 0], [0]⟩) ∧
    jitRun ⟨[[.increment, .exit]]⟩ ⟨[2 ^ 64 - 1, 0, 0, 0, 0, 0, 0, 0], [0]⟩ 8 =
      some ⟨[0, 0, 0, 0, 0, 0, 0, 0], [0]⟩ := by
  decide

/-- C9 (amended): every first CLI argument other than `--no-jit` and
`--nop` — in particular `-i` — falls into the `Some(_)` arm: the
program prints usage and exits 1.  No `-i` mode exists (the textual
parser is not reachable from `main`). -/
theorem unknown_flag_prints_usage (s : String) (h1 : s ≠ "--no-jit") (h2 : s ≠ "--nop") :
    mainMode (some s) = CliMode.usage ∧ (mainMode (some s)).exitCode = 1 := by
  constructor <;> simp [mainMode, CliMode.exitCode, h1, h2]

/-- Witness for `unknown_flag_prints_usage` at `-i`. -/
theorem unknown_flag_prints_usage_witness :
    mainMode (some "-i") = CliMode.usage ∧ (mainMode (some "-i")).exitCode = 1 :=
  unknown_flag_prints_usage "-i" (by decide) (by decide)

/-- C9 counterexample: `-i` is dispatched to the usage-and-exit-1 arm,
i.e. it *is* treated as an unrecognized flag. -/
theorem dash_i_prints_usage :
    mainMode (some "-i") = CliMode.usage ∧ (mainMode (some "-i")).exitCode = 1 := by
  constructor <;> rfl

/-- C10: `VM::new` returns arrays of the requested lengths with every
entry zero, and panics (modelled as `none`) when the register count is
0. -/
theorem vm_new_spec (register_count local_count : Nat) :
    (0 < register_count →
      ∃ v, VM.new register_count local_count = some v ∧
        v.registers.length = register_count ∧ v.locals.length = local_count ∧
        (∀ x ∈ v.registers, x = 0) ∧ ∀ x ∈ v.locals, x = 0) ∧
    (register_count = 0 → VM.new register_count local_count = none) := by
  constructor
  · intro h
    refine ⟨⟨List.replicate register_count 0, List.replicate local_count 0⟩, ?_, ?_, ?_, ?_, ?_⟩
    · simp [VM.new, h]
    · simp
    · simp
    · intro x hx; exact List.eq_of_mem_replicate hx
    · intro x hx; exact List.eq_of_mem_replicate hx
  · intro h; simp [VM.new, h]

/-- Witness for `vm_new_spec` at the `VM::new(8, 1)` the driver uses,
and at register count 0. -/
theorem vm_new_spec_witness :
    (∃ v, VM.new 8 1 = some v ∧ v.registers.length = 8 ∧ v.locals.length = 1 ∧
      (∀ x ∈ v.registers, x = 0) ∧ ∀ x ∈ v.locals, x = 0) ∧ VM.new 0 3 = none :=
  ⟨(vm_new_spec 8 1).1 (by norm_num), (vm_new_spec 0 3).2 rfl⟩



theorem set_of_getD (l : List Nat) : ∀ (i v : Nat), i < l.length → l.getD i 0 = v →
    l.set i v = l := by
  induction l with
  | nil => intro i v h _; simp at h
  | cons a tl ih =>
    intro i v h hv
    cases i with
    | zero => simp [List.getD] at hv; simp [hv]
    | succ n =>
      simp [List.getD] at hv
      simp at h
      simp [List.set, ih n v (by omega) (by simpa [List.getD] using hv)]

theorem rewrite_length (out : List Nat) (i v : Nat) :
    (Jit.rewrite_instr32 out i v).length = out.length := by
  simp [Jit.rewrite_instr32]

theorem rewrite_frame (out : List Nat) (i v j : Nat) (hj : j < i ∨ i + 4 ≤ j) :
    (Jit.rewrite_instr32 out i v).getD j 0 = out.getD j 0 := by
  unfold Jit.rewrite_instr32
  rw [getD_set_ne _ _ _ _ (by omega), getD_set_ne _ _ _ _ (by omega),
    getD_set_ne _ _ _ _ (by omega), getD_set_ne _ _ _ _ (by omega)]

theorem rewrite_read (out : List Nat) (i v : Nat) (hb : i + 4 ≤ out.length) :
    (Jit.rewrite_instr32 out i v).getD i 0 = v % 2 ^ 8 ∧
    (Jit.rewrite_instr32 out i v).getD (i + 1) 0 = v / 2 ^ 8 % 2 ^ 8 ∧
    (Jit.rewrite_instr32 out i v).getD (i + 2) 0 = v / 2 ^ 16 % 2 ^ 8 ∧
    (Jit.rewrite_instr32 out i v).getD (i + 3) 0 = v / 2 ^ 24 % 2 ^ 8 := by
  unfold Jit.rewrite_instr32
  refine ⟨?_, ?_, ?_, ?_⟩
  · rw [getD_set_ne _ _ _ _ (by omega), getD_set_ne _ _ _ _ (by omega),
      getD_set_ne _ _ _ _ (by omega), getD_set_self _ _ _ (by simpa using by omega)]
  · rw [getD_set_ne _ _ _ _ (by omega), getD_set_ne _ _ _ _ (by omega),
      getD_set_self _ _ _ (by simp; omega)]
  · rw [getD_set_ne _ _ _ _ (by omega), getD_set_self _ _ _ (by simp; omega)]
  · rw [getD_set_self _ _ _ (by simp; omega)]

theorem rewrite_self (out : List Nat) (i v : Nat) (hb : i + 4 ≤ out.length)
    (h0 : out.getD i 0 = v % 2 ^ 8) (h1 : out.getD (i + 1) 0 = v / 2 ^ 8 % 2 ^ 8)
    (h2 : out.getD (i + 2) 0 = v / 2 ^ 16 % 2 ^ 8)
    (h3 : out.getD (i + 3) 0 = v / 2 ^ 24 % 2 ^ 8) :
    Jit.rewrite_instr32 out i v = out := by
  unfold Jit.rewrite_instr32
  rw [set_of_getD out i _ (by omega) h0, set_of_getD out (i + 1) _ (by omega) h1,
    set_of_getD out (i + 2) _ (by omega) h2, set_of_getD out (i + 3) _ (by omega) h3]



theorem link_ok_inv (out : List Nat) (t i : Nat) (out' : List Nat)
    (h : Jit.link_and_rewrite out t i = .ok out') :
    i + 4 ≤ out.length ∧
      (out.getD (i + 3) 0 / 4 = 0b000101 ∨ out.getD (i + 3) 0 / 4 = 0b010101) := by
  by_cases hb : i + 4 ≤ out.length
  · refine ⟨hb, ?_⟩
    by_cases h5 : out.getD (i + 3) 0 / 4 = 0b000101
    · exact Or.inl h5
    · by_cases h21 : out.getD (i + 3) 0 / 4 = 0b010101
      · exact Or.inr h21
      · rw [Jit.link_and_rewrite, if_pos hb] at h
        simp only [if_neg h5, if_neg h21] at h
        exact absurd h (by simp)
  · rw [Jit.link_and_rewrite, if_neg hb] at h
    exact absurd h (by simp)

theorem vjmp_byte3 (off : Int) (hoff : -(2 ^ 13) ≤ off ∧ off < 2 ^ 13) :
    (0b000101 * 2 ^ 26 + Jit.sign_extend_upper_bits off 10 * 2 ^ 16 +
        Jit.sign_extend off 16) / 2 ^ 24 % 2 ^ 8 / 4 = 0b000101 := by
  have hu : Jit.sign_extend_upper_bits off 10 < 2 ^ 10 := by
    unfold Jit.sign_extend_upper_bits; split_ifs <;> norm_num
  have hl : Jit.sign_extend off 16 < 2 ^ 16 := by
    unfold Jit.sign_extend; split_ifs <;> omega
  omega

theorem vjeq_byte3 (off : Int) (hoff : -(2 ^ 13) ≤ off ∧ off < 2 ^ 13) :
    (0b01010100 * 2 ^ 24 + Jit.sign_extend_upper_bits off 3 * 2 ^ 21 +
        Jit.sign_extend off 16 * 2 ^ 5) / 2 ^ 24 % 2 ^ 8 / 4 = 0b010101 := by
  have hu : Jit.sign_extend_upper_bits off 3 < 2 ^ 3 := by
    unfold Jit.sign_extend_upper_bits; split_ifs <;> norm_num
  have hl : Jit.sign_extend off 16 < 2 ^ 16 := by
    unfold Jit.sign_extend; split_ifs <;> omega
  omega

theorem linkOff_bounds (t i : Nat) :
    -(2 ^ 13) ≤ rustDiv (wrapI16 (toI16 t - toI16 i)) 4 ∧
      rustDiv (wrapI16 (toI16 t - toI16 i)) 4 < 2 ^ 13 := by
  have hw : -(2 ^ 15) ≤ wrapI16 (toI16 t - toI16 i) ∧
      wrapI16 (toI16 t - toI16 i) < 2 ^ 15 := by
    unfold wrapI16; omega
  unfold rustDiv
  split_ifs <;> omega



theorem link_ok_form (out : List Nat) (t i : Nat) (out' : List Nat)
    (h : Jit.link_and_rewrite out t i = .ok out') :
    ∃ v, out' = Jit.rewrite_instr32 out i v ∧ v / 2 ^ 24 % 2 ^ 8 / 4 = out.getD (i + 3) 0 / 4 := by
  obtain ⟨hb, hop⟩ := link_ok_inv out t i out' h
  rcases hop with h5 | h21
  · have := (link_and_rewrite_ok out t i hb).1 h5
    rw [this] at h
    refine ⟨_, (by simpa using h.symm), ?_⟩
    rw [h5]
    exact vjmp_byte3 _ (linkOff_bounds t i)
  · have := (link_and_rewrite_ok out t i hb).2 h21
    rw [this] at h
    refine ⟨_, (by simpa using h.symm), ?_⟩
    rw [h21]
    exact vjeq_byte3 _ (linkOff_bounds t i)

theorem linkSites_length (sites : List (Nat × Nat)) : ∀ out out',
    Jit.linkSites out sites = .ok out' → out'.length = out.length := by
  induction sites with
  | nil => intro out out' h; simp [Jit.linkSites] at h; simp [h]
  | cons s rest ih =>
    intro out out' h
    obtain ⟨t, i⟩ := s
    rw [Jit.linkSites] at h
    cases hL : Jit.link_and_rewrite out t i with
    | ok b1 =>
      rw [hL] at h
      obtain ⟨v, hv, _⟩ := link_ok_form out t i b1 hL
      rw [ih b1 out' h, hv, rewrite_length]
    | error e => rw [hL] at h; exact absurd h (by simp)

theorem linkSites_frame (sites : List (Nat × Nat)) : ∀ out out' (k : Nat),
    Jit.linkSites out sites = .ok out' →
    (∀ s ∈ sites, s.2 + 4 ≤ k ∨ k + 4 ≤ s.2) →
    ∀ j, k ≤ j → j < k + 4 → out'.getD j 0 = out.getD j 0 := by
  induction sites with
  | nil => intro out out' k h _ j _ _; simp [Jit.linkSites] at h; simp [h]
  | cons s rest ih =>
    intro out out' k h hsep j hj1 hj2
    obtain ⟨t, i⟩ := s
    rw [Jit.linkSites] at h
    cases hL : Jit.link_and_rewrite out t i with
    | ok b1 =>
      rw [hL] at h
      obtain ⟨v, hv, _⟩ := link_ok_form out t i b1 hL
      have hsep1 := hsep (t, i) (by simp)
      rw [ih b1 out' k h (fun s hs => hsep s (by simp [hs])) j hj1 hj2, hv,
        rewrite_frame _ _ _ _ (by simp at hsep1; omega)]
    | error e => rw [hL] at h; exact absurd h (by simp)



theorem link_stable (out b1 fin : List Nat) (t i : Nat)
    (hL : Jit.link_and_rewrite out t i = .ok b1)
    (hlen : fin.length = b1.length)
    (hagree : ∀ j, i ≤ j → j < i + 4 → fin.getD j 0 = b1.getD j 0) :
    Jit.link_and_rewrite fin t i = .ok fin := by
  obtain ⟨hb, hop⟩ := link_ok_inv out t i b1 hL
  have hb1len : b1.length = out.length := by
    obtain ⟨v, hv, _⟩ := link_ok_form out t i b1 hL
    rw [hv, rewrite_length]
  have hbfin : i + 4 ≤ fin.length := by omega
  rcases hop with h5 | h21
  · have hb1 : b1 = Jit.rewrite_instr32 out i
        (0b000101 * 2 ^ 26 +
          Jit.sign_extend_upper_bits (rustDiv (wrapI16 (toI16 t - toI16 i)) 4) 10 * 2 ^ 16 +
          Jit.sign_extend (rustDiv (wrapI16 (toI16 t - toI16 i)) 4) 16) := by
      have h' := (link_and_rewrite_ok out t i hb).1 h5
      rw [h'] at hL
      simpa using hL.symm
    generalize hV : (0b000101 * 2 ^ 26 +
        Jit.sign_extend_upper_bits (rustDiv (wrapI16 (toI16 t - toI16 i)) 4) 10 * 2 ^ 16 +
        Jit.sign_extend (rustDiv (wrapI16 (toI16 t - toI16 i)) 4) 16 : Nat) = V at hb1
    have hrd := rewrite_read out i V hb
    have hf0 : fin.getD i 0 = V % 2 ^ 8 := by
      rw [hagree i (by omega) (by omega), hb1, hrd.1]
    have hf1 : fin.getD (i + 1) 0 = V / 2 ^ 8 % 2 ^ 8 := by
      rw [hagree (i + 1) (by omega) (by omega), hb1, hrd.2.1]
    have hf2 : fin.getD (i + 2) 0 = V / 2 ^ 16 % 2 ^ 8 := by
      rw [hagree (i + 2) (by omega) (by omega), hb1, hrd.2.2.1]
    have hf3 : fin.getD (i + 3) 0 = V / 2 ^ 24 % 2 ^ 8 := by
      rw [hagree (i + 3) (by omega) (by omega), hb1, hrd.2.2.2]
    have hopfin : fin.getD (i + 3) 0 / 4 = 0b000101 := by
      rw [hf3, ← hV]
      exact vjmp_byte3 _ (linkOff_bounds t i)
    have hlink := (link_and_rewrite_ok fin t i hbfin).1 hopfin
    rw [hlink, hV]
    exact congrArg _ (rewrite_self fin i V hbfin hf0 hf1 hf2 hf3)
  · have hb1 : b1 = Jit.rewrite_instr32 out i
        (0b01010100 * 2 ^ 24 +
          Jit.sign_extend_upper_bits (rustDiv (wrapI16 (toI16 t - toI16 i)) 4) 3 * 2 ^ 21 +
          Jit.sign_extend (rustDiv (wrapI16 (toI16 t - toI16 i)) 4) 16 * 2 ^ 5) := by
      have h' := (link_and_rewrite_ok out t i hb).2 h21
      rw [h'] at hL
      simpa using hL.symm
    generalize hV : (0b01010100 * 2 ^ 24 +
        Jit.sign_extend_upper_bits (rustDiv (wrapI16 (toI16 t - toI16 i)) 4) 3 * 2 ^ 21 +
        Jit.sign_extend (rustDiv (wrapI16 (toI16 t - toI16 i)) 4) 16 * 2 ^ 5 : Nat) = V at hb1
    have hrd := rewrite_read out i V hb
    have hf0 : fin.getD i 0 = V % 2 ^ 8 := by
      rw [hagree i (by omega) (by omega), hb1, hrd.1]
    have hf1 : fin.getD (i + 1) 0 = V / 2 ^ 8 % 2 ^ 8 := by
      rw [hagree (i + 1) (by omega) (by omega), hb1, hrd.2.1]
    have hf2 : fin.getD (i + 2) 0 = V / 2 ^ 16 % 2 ^ 8 := by
      rw [hagree (i + 2) (by omega) (by omega), hb1, hrd.2.2.1]
    have hf3 : fin.getD (i + 3) 0 = V / 2 ^ 24 % 2 ^ 8 := by
      rw [hagree (i + 3) (by omega) (by omega), hb1, hrd.2.2.2]
    have hopfin : fin.getD (i + 3) 0 / 4 = 0b010101 := by
      rw [hf3, ← hV]
      exact vjeq_byte3 _ (linkOff_bounds t i)
    have hlink := (link_and_rewrite_ok fin t i hbfin).2 hopfin
    rw [hlink, hV]
    exact congrArg _ (rewrite_self fin i V hbfin hf0 hf1 hf2 hf3)

theorem linkSites_idem (sites : List (Nat × Nat)) : ∀ out out',
    List.Pairwise siteSep sites →
    Jit.linkSites out sites = .ok out' → Jit.linkSites out' sites = .ok out' := by
  induction sites with
  | nil =>
    intro out out' _ h
    simp [Jit.linkSites] at h
    simp [Jit.linkSites, h]
  | cons s rest ih =>
    intro out out' hpw h
    obtain ⟨t, i⟩ := s
    rw [Jit.linkSites] at h
    cases hL : Jit.link_and_rewrite out t i with
    | ok b1 =>
      rw [hL] at h
      have hsep : ∀ s ∈ rest, s.2 + 4 ≤ i ∨ i + 4 ≤ s.2 := by
        intro s hs
        have := (List.pairwise_cons.mp hpw).1 s hs
        unfold siteSep at this
        omega
      have hlen : out'.length = b1.length := linkSites_length rest b1 out' h
      have hagree : ∀ j, i ≤ j → j < i + 4 → out'.getD j 0 = b1.getD j 0 :=
        linkSites_frame rest b1 out' i h hsep
      have hstable := link_stable out b1 out' t i hL hlen hagree
      rw [Jit.linkSites, hstable]
      exact ih b1 out' (List.pairwise_cons.mp hpw).2 h
    | error e => rw [hL] at h; exact absurd h (by simp)



theorem inv_emit (st : AsmSt) (bs : List Nat) (h : AsmInv st) : AsmInv (st.emit bs) := by
  obtain ⟨h1, h2⟩ := h
  refine ⟨h1, ?_⟩
  intro s hs
  have := h2 s hs
  simp [AsmSt.emit]
  omega

theorem inv_mark (st : AsmSt) (t : Nat) (h : AsmInv st) (h4 : 4 ≤ st.out.length)
    (hall : ∀ s ∈ st.sites, s.2 + 4 ≤ st.out.length - 4) :
    AsmInv { st with sites := st.sites ++ [(t, st.out.length - 4)] } := by
  obtain ⟨h1, h2⟩ := h
  constructor
  · rw [List.pairwise_append]
    refine ⟨h1, by simp, ?_⟩
    intro x hx y hy
    simp at hy
    subst hy
    exact hall x hx
  · intro s hs
    simp at hs
    rcases hs with hs | hs
    · have := h2 s hs
      simp
      omega
    · rw [hs]
      simp
      omega

theorem inv_jump (st : AsmSt) (t : Nat) (h : AsmInv st) : AsmInv (Assembler.jump st t) := by
  unfold Assembler.jump
  apply inv_mark _ _ (inv_emit st _ h)
  · simp [AsmSt.emit, bytesOfWord]
  · intro s hs
    have := h.2 s hs
    simp [AsmSt.emit, bytesOfWord] at *
    omega



theorem inv_jc (st : AsmSt) (r : Reg) (t f : Nat) (h : AsmInv st) :
    AsmInv (Assembler.jump_conditional st r t f) := by
  unfold Assembler.jump_conditional
  apply inv_jump
  apply inv_mark _ _ (inv_emit _ _ (inv_emit st _ h))
  · simp [AsmSt.emit, bytesOfWord]
  · intro s hs
    simp only [AsmSt.emit, bytesOfWord] at hs ⊢
    have := h.2 s hs
    simp
    omega



theorem inv_call (st : AsmSt) (dst : Reg) (addr arg0 : Nat) (h : AsmInv st) :
    AsmInv (Assembler.call_into_rust st dst addr arg0) := by
  unfold Assembler.call_into_rust
  split
  · apply inv_emit
    apply inv_emit
    apply inv_emit
    apply inv_emit
    apply inv_emit
    repeat apply inv_emit
    exact h
  · repeat apply inv_emit
    exact h

theorem inv_lowerInstr (a : AsmSt) (ins : Instr) (h : AsmInv a) : AsmInv (lowerInstr a ins) := by
  cases ins with
  | loadImmediate v => exact inv_emit _ _ (inv_emit _ _ h)
  | load r => exact inv_emit _ _ (inv_emit _ _ h)
  | store r => exact inv_emit _ _ (inv_emit _ _ h)
  | setLocal l => exact inv_emit _ _ (inv_emit _ _ h)
  | getLocal l => exact inv_emit _ _ (inv_emit _ _ h)
  | increment => exact inv_emit _ _ (inv_emit _ _ (inv_emit _ _ h))
  | lessThan lhs =>
    exact inv_emit _ _ (inv_emit _ _ (inv_emit _ _ (inv_emit _ _ (inv_emit _ _ h))))
  | loadRandom mx => exact inv_emit _ _ (inv_call _ _ _ _ h)
  | breakpoint => exact inv_emit _ _ h
  | exit => exact inv_emit _ _ h
  | jump t => exact inv_jump _ _ h
  | jumpConditional t f => exact inv_jc _ _ _ _ (inv_emit _ _ h)

theorem inv_foldl_lowerInstr (blk : List Instr) : ∀ a, AsmInv a →
    AsmInv (blk.foldl lowerInstr a) := by
  induction blk with
  | nil => intro a h; exact h
  | cons i rest ih => intro a h; exact ih _ (inv_lowerInstr a i h)

theorem inv_lowerBlock (L : LowerSt) (blk : List Instr) (h : AsmInv L.asm) :
    AsmInv (lowerBlock L blk).asm :=
  inv_foldl_lowerInstr blk L.asm h

theorem inv_lower (P : Program) : AsmInv (Jit.lower P).asm := by
  unfold Jit.lower
  have : ∀ (bs : List (List Instr)) (L : LowerSt), AsmInv L.asm →
      AsmInv (bs.foldl lowerBlock L).asm := by
    intro bs
    induction bs with
    | nil => intro L h; exact h
    | cons b rest ih => intro L h; exact ih _ (inv_lowerBlock L b h)
  exact this P.blocks ⟨⟨[], []⟩, []⟩ ⟨by simp, by simp⟩



theorem pairwise_gap_mem (sites : List (Nat × Nat)) (h : List.Pairwise siteGap sites) :
    ∀ x ∈ sites, ∀ y ∈ sites, x ≠ y → siteSep x y := by
  induction sites with
  | nil => intro x hx; simp at hx
  | cons a l ih =>
    intro x hx y hy hne
    obtain ⟨ha, hl⟩ := List.pairwise_cons.mp h
    rcases List.mem_cons.mp hx with rfl | hx' <;> rcases List.mem_cons.mp hy with rfl | hy'
    · exact absurd rfl hne
    · exact Or.inl (ha y hy')
    · exact Or.inr (ha x hx')
    · exact ih hl x hx' y hy' hne

theorem mem_orderedSitesGo (sites : List (Nat × Nat)) :
    ∀ (offsets : List Nat) (b : Nat) (y : Nat × Nat),
      y ∈ Jit.orderedSitesGo sites offsets b →
      ∃ s ∈ sites, s.2 = y.2 ∧ b ≤ s.1 := by
  intro offsets
  induction offsets with
  | nil => intro b y hy; simp [Jit.orderedSitesGo] at hy
  | cons off rest ih =>
    intro b y hy
    rw [Jit.orderedSitesGo] at hy
    rcases List.mem_append.mp hy with hy | hy
    · obtain ⟨s, hs, hmap⟩ := List.mem_map.mp hy
      have hf := List.mem_filter.mp hs
      refine ⟨s, hf.1, ?_, ?_⟩
      · rw [← hmap]
      · have : s.1 = b := by simpa using hf.2
        omega
    · obtain ⟨s, hs, h2, h3⟩ := ih (b + 1) y hy
      exact ⟨s, hs, h2, by omega⟩

theorem pairwise_orderedSitesGo (sites : List (Nat × Nat)) (hpw : List.Pairwise siteGap sites) :
    ∀ (offsets : List Nat) (b : Nat),
      List.Pairwise siteSep (Jit.orderedSitesGo sites offsets b) := by
  intro offsets
  induction offsets with
  | nil => intro b; simp [Jit.orderedSitesGo]
  | cons off rest ih =>
    intro b
    rw [Jit.orderedSitesGo, List.pairwise_append]
    refine ⟨?_, ih (b + 1), ?_⟩
    · -- within one block's group: filter keeps the strict order
      rw [List.pairwise_map]
      apply List.Pairwise.imp (fun hg => Or.inl hg)
      exact List.Pairwise.filter _ hpw
    · -- across groups: distinct targets give distinct sites, hence separation
      intro x hx y hy
      obtain ⟨sx, hsx, hmx⟩ := List.mem_map.mp hx
      have hfx := List.mem_filter.mp hsx
      obtain ⟨sy, hsy, hy2, hy3⟩ := mem_orderedSitesGo sites rest (b + 1) y hy
      have hxb : sx.1 = b := by simpa using hfx.2
      have hne : sx ≠ sy := by
        intro he
        rw [he] at hxb
        omega
      have hsep := pairwise_gap_mem sites hpw sx hfx.1 sy hsy hne
      unfold siteSep at hsep ⊢
      rw [show x.2 = sx.2 from by rw [← hmx], ← hy2]
      exact hsep



theorem compile_ok_linkSites (P : Program) (j : Jit.CompiledJit) (h : Jit.compile P = .ok j) :
    Jit.linkSites (Jit.lower P).asm.out (Jit.orderedSites (Jit.lower P)) = .ok j.code := by
  unfold Jit.compile at h
  cases hL : Jit.linkSites (Jit.lower P).asm.out (Jit.orderedSites (Jit.lower P)) with
  | ok code =>
    simp only [hL] at h
    injection h with h'
    rw [← h']
  | error e =>
    simp only [hL] at h
    exact absurd h (by simp)

/-- C7: for every lowered program, running the branch-linking pass a
second time over the already-linked code buffer reproduces the buffer
byte-for-byte.  `Jit.compile P = .ok j` means lowering plus one
linking pass produced `j.code`; rerunning the same pass (the blocks in
order, each block's recorded jump sites in insertion order, against
the frozen block offsets) maps `j.code` to itself. -/
theorem linker_idempotent (P : Program) (j : Jit.CompiledJit) (h : Jit.compile P = .ok j) :
    Jit.linkSites j.code (Jit.orderedSites (Jit.lower P)) = .ok j.code := by
  have hls := compile_ok_linkSites P j h
  have hpw : List.Pairwise siteSep (Jit.orderedSites (Jit.lower P)) := by
    unfold Jit.orderedSites
    exact pairwise_orderedSitesGo _ (inv_lower P).1 _ 0
  exact linkSites_idem _ _ _ hpw hls

/-- Witness for `linker_idempotent` on the concrete two-block program
whose compiled form is spelled out. -/
theorem linker_idempotent_witness :
    Jit.linkSites
      [36, 0, 128, 210, 36, 0, 0, 249, 1, 0, 0, 20, 36, 0, 64, 249, 132, 4, 0, 145,
        36, 0, 0, 249, 192, 3, 95, 214]
      (Jit.orderedSites (Jit.lower ⟨[[.loadImmediate 1, .jump 1], [.increment, .exit]]⟩)) =
    .ok [36, 0, 128, 210, 36, 0, 0, 249, 1, 0, 0, 20, 36, 0, 64, 249, 132, 4, 0, 145,
        36, 0, 0, 249, 192, 3, 95, 214] :=
  linker_idempotent ⟨[[.loadImmediate 1, .jump 1], [.increment, .exit]]⟩
    ⟨[36, 0, 128, 210, 36, 0, 0, 249, 1, 0, 0, 20, 36, 0, 64, 249, 132, 4, 0, 145,
        36, 0, 0, 249, 192, 3, 95, 214], [0, 12]⟩ (by decide)


end CheekyJit
